import Mathlib

/-!
Verification of the eyelid-openness calibration pipeline of the EyeTracking
repository (`src/services/opennessComputationService.ts` and
`src/services/models/*`), against its natural-language specification.

Numbers are embedded as rationals (`ℚ`): the source computes with IEEE
doubles, but every claim under scrutiny is about the algorithmic structure
(indices, orderings, control flow), which the exact-arithmetic embedding
renders faithfully.  JavaScript arrays become `List`s; `arr[i]` reads are
rendered with `List.getD` at call sites that are in range (out-of-range
reads are modelled where the source can actually perform them).
-/

namespace EyeTracking

/-! ## Generic helpers for the JS idioms used by the source -/

/-- `Math.max(0, Math.min(1, x))` — clamp to `[0,1]`. -/
def clamp01 (x : ℚ) : ℚ := max 0 (min 1 x)

/-- `arr.slice(s, e)` for natural bounds (JS `slice` truncates at the
array's length and yields `[]` when `s ≥ e`). -/
def jsSlice (l : List ℚ) (s e : ℕ) : List ℚ := (l.drop s).take (e - s)

/-! ## SignalSmoother (`smoothSeries`, opennessComputationService.ts 140–178)

The median window: `s = Math.max(0, i - (medWin >> 1))`,
`e = Math.min(pred.length, i + (medWin >> 1) + 1)`, slice sorted ascending
(`sort((a, b) => a - b)`), then `w.length % 2 ? w[m] : (w[m-1] + w[m]) / 2`
with `m = w.length >> 1`.  Natural subtraction renders `Math.max(0, ·)`. -/
def medianWindow (pred : List ℚ) (medWin i : ℕ) : ℚ :=
  let s := i - medWin / 2
  let e := min pred.length (i + medWin / 2 + 1)
  let w := (jsSlice pred s e).insertionSort (· ≤ ·)
  let m := w.length / 2
  if w.length % 2 = 1 then w.getD m 0 else (w.getD (m - 1) 0 + w.getD m 0) / 2

/-- The forward-EMA loop body: starting from accumulator `acc`, each element
`x` produces `alpha * x + (1 - alpha) * acc` and updates the accumulator. -/
def emaFwdAux (alpha acc : ℚ) : List ℚ → List ℚ
  | [] => []
  | x :: xs =>
    let acc2 := alpha * x + (1 - alpha) * acc
    acc2 :: emaFwdAux alpha acc2 xs

/-- Causal EMA (`fwd[0] = med[0]; fwd[i] = α·med[i] + (1-α)·fwd[i-1]`). -/
def emaFwd (alpha : ℚ) : List ℚ → List ℚ
  | [] => []
  | x :: xs => x :: emaFwdAux alpha x xs

/-- `smoothSeries(pred, medWin = 5, alpha = 0.35)`: median pass, forward EMA,
backward EMA (the source's backward loop is the forward loop run on the
reversed list), zero-phase blend `(fwd + bwd) / 2`, then clamp to `[0,1]`. -/
def smoothSeries (pred : List ℚ) (medWin : ℕ := 5) (alpha : ℚ := 7/20) : List ℚ :=
  if pred.isEmpty then [] else
    let med := (List.range pred.length).map (medianWindow pred medWin)
    let fwd := emaFwd alpha med
    let bwd := (emaFwd alpha med.reverse).reverse
    let out := List.zipWith (fun v b => (v + b) / 2) fwd bwd
    out.map clamp01

/-! ### Spec reference model of the smoother (spec.md §4.2, claim C3)

The reference is stated index-wise: `med[i]` is the median of the sorted
slice over `[max(0, i-⌊medWin/2⌋), min(len, i+⌊medWin/2⌋+1))`; `fwd` is the
causal recurrence; `bwd` the anti-causal recurrence run from the last index;
the output is the clamped average. -/

/-- Spec §4.2 step 1: median of the sorted window around `i` (average of the
two central values when the slice length is even). -/
def specMedian (input : List ℚ) (medWin i : ℕ) : ℚ :=
  let lo := i - medWin / 2
  let hi := min input.length (i + medWin / 2 + 1)
  let sl := ((input.drop lo).take (hi - lo)).insertionSort (· ≤ ·)
  if sl.length % 2 = 1 then sl.getD (sl.length / 2) 0
  else (sl.getD (sl.length / 2 - 1) 0 + sl.getD (sl.length / 2) 0) / 2

/-- Spec §4.2 step 2: `fwd[0] = med[0]`, `fwd[i] = α·med[i] + (1-α)·fwd[i-1]`. -/
def specFwd (med : ℕ → ℚ) (alpha : ℚ) : ℕ → ℚ
  | 0 => med 0
  | i + 1 => alpha * med (i + 1) + (1 - alpha) * specFwd med alpha i

/-- Spec §4.2 step 3: the anti-causal EMA `bwd[last] = med[last]`,
`bwd[i] = α·med[i] + (1-α)·bwd[i+1]`, expressed through the causal
recurrence on reversed indices (`bwd i = specFwd (med ∘ flip) (flip i)`). -/
def specBwd (n : ℕ) (med : ℕ → ℚ) (alpha : ℚ) (i : ℕ) : ℚ :=
  specFwd (fun j => med (n - 1 - j)) alpha (n - 1 - i)

/-- Spec §4.2: the full reference smoother; `out[i] = (fwd[i]+bwd[i])/2`
clamped to `[0,1]`; empty input yields empty output. -/
def specSmooth (input : List ℚ) (medWin : ℕ) (alpha : ℚ) : List ℚ :=
  let n := input.length
  let med : ℕ → ℚ := specMedian input medWin
  (List.range n).map fun i =>
    clamp01 ((specFwd med alpha i + specBwd n med alpha i) / 2)

/-! ## ExtremaLabeler (`labelBlinkExtrema`, opennessComputationService.ts 199–253)

The hysteresis scan.  `stOpen` renders the `State` enum (`true` = `OPEN`);
`segStart`, `overRun`, `underRun` and the two result arrays render the
loop's mutable locals.  The fixed thresholds of the pipeline are
`OPEN_TH_FIXED = 0.8` and `CLOSE_TH_FIXED = 0.2`. -/

def OPEN_TH_FIXED : ℚ := 4/5

def CLOSE_TH_FIXED : ℚ := 1/5

/-- Result record of `labelBlinkExtrema` (`type Extremes`). -/
structure Extremes where
  smooth : List ℚ
  peaks : List ℕ
  valleys : List ℕ
deriving Repr, DecidableEq

/-- Loop state of the hysteresis scan. -/
structure ScanSt where
  stOpen : Bool
  segStart : ℕ
  overRun : ℕ
  underRun : ℕ
  peaks : List ℕ
  valleys : List ℕ
deriving Repr, DecidableEq

/-- `finishSegment(endIdx, prev)`: indices `segStart..endIdx`; `endIdx` is an
integer because the caller passes `i - minRun`, which JS evaluates below
zero (the `segStart > endIdx` guard then returns early).  The slice is
`smooth.slice(segStart, endIdx + 1)` (truncated at the length, like JS);
the plateau filter reads `smooth[i]`, which in JS is `undefined` — never
equal to a number — for `i` beyond the array, hence the bounds test inside
the filter.  `Math.min(...slice)` of an empty slice is `Infinity`, whose
plateau is empty and would push `undefined`; that branch (unreachable from
the scan, whose segments stay inside the array) is rendered as no push. -/
def finishSegment (smooth : List ℚ) (segStart : ℕ) (endIdx : ℤ) (prevOpen : Bool)
    (peaks valleys : List ℕ) : List ℕ × List ℕ :=
  if (segStart : ℤ) > endIdx then (peaks, valleys)
  else
    let idxs := List.range' segStart ((endIdx + 1 - segStart).toNat)
    let slice := jsSlice smooth segStart (endIdx + 1).toNat
    if slice.isEmpty then (peaks, valleys)
    else if prevOpen then
      let maxVal := slice.foldl max (slice.headD 0)
      let plateau := (idxs.filter fun i => decide (i < smooth.length)).filter
        fun i => decide (smooth.getD i 0 = maxVal)
      (peaks ++ [plateau.getD (plateau.length / 2) 0], valleys)
    else
      let minVal := slice.foldl min (slice.headD 0)
      let plateau := (idxs.filter fun i => decide (i < smooth.length)).filter
        fun i => decide (smooth.getD i 0 = minVal)
      (peaks, valleys ++ [plateau.getD (plateau.length / 2) 0])

/-- One iteration of the scan loop at index `i`.  In the `CLOSED` branch:
`if (y >= openTh) { overRun++; underRun = 0; } else { overRun = 0; }`, then
on `overRun >= minRun` finalize `(segStart, i - minRun)`, flip to `OPEN`,
restart the segment at `i - minRun + 1` (the transition is only reachable
for `i ≥ minRun - 1`, where the natural subtraction agrees with JS) and
zero `overRun`.  The `OPEN` branch is symmetric with `closeTh`/`underRun`. -/
def scanStep (openTh closeTh : ℚ) (minRun : ℕ) (smooth : List ℚ)
    (st : ScanSt) (i : ℕ) : ScanSt :=
  let y := smooth.getD i 0
  if st.stOpen = false then
    let overRun := if y ≥ openTh then st.overRun + 1 else 0
    let underRun := if y ≥ openTh then 0 else st.underRun
    if overRun ≥ minRun then
      let pv := finishSegment smooth st.segStart ((i : ℤ) - minRun) false st.peaks st.valleys
      { stOpen := true, segStart := i + 1 - minRun, overRun := 0, underRun := underRun,
        peaks := pv.1, valleys := pv.2 }
    else { st with overRun := overRun, underRun := underRun }
  else
    let underRun := if y ≤ closeTh then st.underRun + 1 else 0
    let overRun := if y ≤ closeTh then 0 else st.overRun
    if underRun ≥ minRun then
      let pv := finishSegment smooth st.segStart ((i : ℤ) - minRun) true st.peaks st.valleys
      { stOpen := false, segStart := i + 1 - minRun, overRun := overRun, underRun := 0,
        peaks := pv.1, valleys := pv.2 }
    else { st with overRun := overRun, underRun := underRun }

/-- Initial scan state: `state = smooth[0] >= mid ? OPEN : CLOSED` with
`mid = (openTh + closeTh) / 2`; `segStart = 0`; both counters zero. -/
def scanInit (openTh closeTh : ℚ) (smooth : List ℚ) : ScanSt :=
  { stOpen := decide (smooth.getD 0 0 ≥ (openTh + closeTh) / 2),
    segStart := 0, overRun := 0, underRun := 0, peaks := [], valleys := [] }

/-- State of the scan after processing indices `0..n-1`. -/
def scanStateAt (openTh closeTh : ℚ) (smooth : List ℚ) (n : ℕ) : ScanSt :=
  (List.range n).foldl (scanStep openTh closeTh 3 smooth) (scanInit openTh closeTh smooth)

/-- The raw peak/valley lists: full scan, then
`finishSegment(smooth.length - 1, state)` for the remaining segment. -/
def scanExtrema (smooth : List ℚ) (openTh closeTh : ℚ) : List ℕ × List ℕ :=
  let fin := scanStateAt openTh closeTh smooth smooth.length
  finishSegment smooth fin.segStart ((smooth.length : ℤ) - 1) fin.stOpen fin.peaks fin.valleys

/-- The "Ensure V–P–V pairing" post-processing:
`if (peaks.length && valleys.length) { if (peaks[0] < valleys[0]) peaks.shift();
if (valleys[valleys.length-1] < peaks[peaks.length-1]) valleys.pop(); }`.
If the shift emptied `peaks`, JS compares against `undefined`, which is
false, so the pop cannot fire — rendered by matching on `getLast?`. -/
def postProcess (peaks valleys : List ℕ) : List ℕ × List ℕ :=
  if peaks ≠ [] ∧ valleys ≠ [] then
    let peaks2 := if peaks.headD 0 < valleys.headD 0 then peaks.tail else peaks
    let valleys2 :=
      match peaks2.getLast? with
      | none => valleys
      | some pl => if valleys.getLastD 0 < pl then valleys.dropLast else valleys
    (peaks2, valleys2)
  else (peaks, valleys)

/-- `labelBlinkExtrema(pred, openTh = 0.8, closeTh = 0.2)`. -/
def labelBlinkExtrema (pred : List ℚ)
    (openTh : ℚ := OPEN_TH_FIXED) (closeTh : ℚ := CLOSE_TH_FIXED) : Extremes :=
  let smooth := smoothSeries pred 5 (7/20)
  if smooth.isEmpty then { smooth := smooth, peaks := [], valleys := [] }
  else
    let raw := scanExtrema smooth openTh closeTh
    let pv := postProcess raw.1 raw.2
    { smooth := smooth, peaks := pv.1, valleys := pv.2 }

/-! ### Spec reference model of the hysteresis scan (spec.md §4.3 steps 2–5,
claim C2)

The spec describes the scan with a run counter per state ("counts
consecutive samples" beyond the active threshold), a segment start index,
and finalization by plateau midpoint.  The counter restarts when the state
flips; an empty segment has no plateau and appends nothing (the procedure
only ever finalizes nonempty segments, claim C10). -/

/-- Spec scan state: current state, segment start, and the run counter of
the active threshold. -/
structure SpecScanSt where
  isOpen : Bool
  segStart : ℕ
  run : ℕ
  peaks : List ℕ
  valleys : List ℕ
deriving Repr, DecidableEq

/-- Spec §4.3 step 4: append the index at the middle position (`⌊len/2⌋`)
of the plateau of indices attaining the segment minimum (CLOSED → valleys)
or maximum (OPEN → peaks). -/
def specFinish (smooth : List ℚ) (segStart : ℕ) (endIdx : ℤ) (wasOpen : Bool)
    (peaks valleys : List ℕ) : List ℕ × List ℕ :=
  let idxs := List.range' segStart ((endIdx + 1 - segStart).toNat)
  let vals := idxs.map fun i => smooth.getD i 0
  if vals.isEmpty then (peaks, valleys)
  else if wasOpen then
    let maxVal := vals.foldl max (vals.headD 0)
    let plateau := idxs.filter fun i => decide (smooth.getD i 0 = maxVal)
    (peaks ++ [plateau.getD (plateau.length / 2) 0], valleys)
  else
    let minVal := vals.foldl min (vals.headD 0)
    let plateau := idxs.filter fun i => decide (smooth.getD i 0 = minVal)
    (peaks, valleys ++ [plateau.getD (plateau.length / 2) 0])

/-- Spec §4.3 step 3, at scan index `i`: while CLOSED, the run counts
consecutive samples `≥ openTh`; when it reaches `minRun`, finalize the
segment ending at `i - minRun`, flip to OPEN, and restart the segment at
`i - minRun + 1` with a fresh count.  Symmetric while OPEN with `closeTh`. -/
def specScanStep (openTh closeTh : ℚ) (minRun : ℕ) (smooth : List ℚ)
    (st : SpecScanSt) (i : ℕ) : SpecScanSt :=
  let y := smooth.getD i 0
  if st.isOpen = false then
    let run := if y ≥ openTh then st.run + 1 else 0
    if run ≥ minRun then
      let pv := specFinish smooth st.segStart ((i : ℤ) - minRun) false st.peaks st.valleys
      { isOpen := true, segStart := i + 1 - minRun, run := 0, peaks := pv.1, valleys := pv.2 }
    else { st with run := run }
  else
    let run := if y ≤ closeTh then st.run + 1 else 0
    if run ≥ minRun then
      let pv := specFinish smooth st.segStart ((i : ℤ) - minRun) true st.peaks st.valleys
      { isOpen := false, segStart := i + 1 - minRun, run := 0, peaks := pv.1, valleys := pv.2 }
    else { st with run := run }

/-- Spec §4.3 step 2: state is OPEN iff `smooth[0] ≥ mid`,
`mid = (openTh + closeTh) / 2`; segment start 0; zero counters. -/
def specScanInit (openTh closeTh : ℚ) (smooth : List ℚ) : SpecScanSt :=
  { isOpen := decide (smooth.getD 0 0 ≥ (openTh + closeTh) / 2),
    segStart := 0, run := 0, peaks := [], valleys := [] }

def specScanStateAt (openTh closeTh : ℚ) (smooth : List ℚ) (n : ℕ) : SpecScanSt :=
  (List.range n).foldl (specScanStep openTh closeTh 3 smooth) (specScanInit openTh closeTh smooth)

/-- Spec §4.3 steps 2–5: the scan, then the remaining segment (from the last
segment start to the end) finalized in the current state. -/
def specScanExtrema (smooth : List ℚ) (openTh closeTh : ℚ) : List ℕ × List ℕ :=
  let fin := specScanStateAt openTh closeTh smooth smooth.length
  specFinish smooth fin.segStart ((smooth.length : ℤ) - 1) fin.isOpen fin.peaks fin.valleys

def ScanRel (c : ScanSt) (s : SpecScanSt) : Prop :=
  c.stOpen = s.isOpen ∧ c.segStart = s.segStart ∧ c.peaks = s.peaks ∧
    c.valleys = s.valleys ∧
    (c.stOpen = true → c.overRun = 0 ∧ c.underRun = s.run) ∧
    (c.stOpen = false → c.underRun = 0 ∧ c.overRun = s.run)

/-- A blink-like raw prediction: low, high, low, high.  After smoothing the
scan labels it valley 0, peak 10, valley 17, peak 29 — strictly
alternating, last valley before last peak. -/
def predVPVP : List ℚ :=
  List.replicate 6 0 ++ List.replicate 8 1 ++ List.replicate 8 0 ++ List.replicate 8 1

/-! ### The deep scan invariant: transitions happen late enough that every
finalized segment is nonempty (claim C10).

`DeepInv` says: the segment start is 0 or at least three behind the scan
index (a transition at `j` puts the new start at `j - 2` and the scan at
`j + 1`); and a nonzero active run counter obeys
`segStart + run + 1 ≤ i` — the run's samples lie strictly inside the
current segment, because the sample at which the segment's state was
entered cannot itself satisfy the opposite threshold.  At a transition the
incremented run is `minRun = 3`, so the finalized segment
`[segStart, i - 3]` satisfies `segStart ≤ i - 3`. -/

def DeepInv (i : ℕ) (st : ScanSt) : Prop :=
  (st.segStart = 0 ∨ st.segStart + 3 ≤ i) ∧
  (st.stOpen = false → st.overRun = 0 ∨ st.segStart + st.overRun + 1 ≤ i) ∧
  (st.stOpen = true → st.underRun = 0 ∨ st.segStart + st.underRun + 1 ≤ i)

/-! ## smoothBlinkModel (`src/services/models/smoothBlinkModel.ts`)

The ordering-sign array of `train` (lines 132–141) and the composite loss
of `makeCompositeLoss` (lines 96–115).  Tensors of scalars are lists; `tf`
reductions become list folds. -/

/-- One interval write of the ordering-sign loop:
`for (let i = s; i < e; i++) orderingSign[i] = sgn`.  In the pipeline all
extrema indices are `< N`, so every write is in range; an out-of-range
write, which in JS would grow the array, is rendered as a no-op. -/
def setRange (arr : List ℤ) (s e : ℕ) (sgn : ℤ) : List ℤ :=
  (List.range' s (e - s)).foldl (fun a i => a.set i sgn) arr

/-- One step of the extrema-pair walk: write the current sign over
`[s, e)` and toggle the `rising` flag. -/
def signFoldStep (st : List ℤ × Bool) (se : ℕ × ℕ) : List ℤ × Bool :=
  (setRange st.1 se.1 se.2 (if st.2 then 1 else -1), ! st.2)

/-- The ordering-sign array (`train`, lines 132–141): start from
`Array(N-1).fill(0)`; sort `[...valleys, ...peaks]` ascending; if there are
at least two extrema, walk consecutive pairs with `rising` initialized to
`valleys.includes(extrema[0])`, writing `+1` when rising and `−1` when
falling, toggling after every interval. -/
def orderingSignArr (N : ℕ) (valleys peaks : List ℕ) : List ℤ :=
  let extrema := (valleys ++ peaks).insertionSort (· ≤ ·)
  if 2 ≤ extrema.length then
    ((List.zip extrema extrema.tail).foldl signFoldStep
      (List.replicate (N - 1) 0, valleys.contains (extrema.headD 0))).1
  else List.replicate (N - 1) 0

/-- The sign the alternating walk assigns to position `i`: scan consecutive
extrema pairs; the first interval `[a, b)` containing `i` yields the
current flag's sign; the flag toggles at every interval; positions outside
every interval get 0. -/
def intervalSignAt : List ℕ → Bool → ℕ → ℤ
  | [], _, _ => 0
  | [_], _, _ => 0
  | a :: b :: rest, r, i =>
    if a ≤ i ∧ i < b then (if r then 1 else -1)
    else intervalSignAt (b :: rest) (! r) i

/-! ### The composite training loss (`makeCompositeLoss`, lines 96–115,
claim C4) -/

/-- `tf.relu` on a scalar. -/
def relu (x : ℚ) : ℚ := max x 0

/-- `tensor.mean()` over a list of scalars (the pipeline only takes means
of nonempty lists; `mean [] = 0` here where tf would yield `NaN`). -/
def mean (l : List ℚ) : ℚ := l.sum / l.length

/-- The composite loss: `anchorIdx = [...peaks, ...valleys]` (the source
passes `peaks` and `valleys` as JS `Set`s built from the labeler's index
lists, which are duplicate-free, so list concatenation is their iteration
order); `anchorLoss` is `tf.losses.meanSquaredError(target, yAnchor)`;
`diff = y[1:] − y[:N−1]`; `orderingLoss = relu(−sign·diff).mean()`; result
`anchorLoss + orderingLoss · 0.5`. -/
def compositeLoss (orderingSign : List ℚ) (peaks valleys : List ℕ)
    (yPred : List ℚ) : ℚ :=
  let y := yPred
  let n := y.length
  let anchorIdx := peaks ++ valleys
  let yAnchor := anchorIdx.map fun i => y.getD i 0
  let target := anchorIdx.map fun i => if i ∈ peaks then (1 : ℚ) else 0
  let anchorLoss := mean (List.zipWith (fun t p => (t - p) ^ 2) target yAnchor)
  let diff := List.zipWith (fun a b => a - b) (y.drop 1) (y.take (n - 1))
  let orderingLoss := mean (List.zipWith (fun s d => relu (-(s * d))) orderingSign diff)
  anchorLoss + orderingLoss * (1/2)

/-- Spec side of C4, anchor term: mean-squared error between the predicted
values at the extrema indices and targets 1 at peaks, 0 at valleys. -/
def specAnchorLoss (peaks valleys : List ℕ) (yPred : List ℚ) : ℚ :=
  mean ((peaks ++ valleys).map fun i =>
    (yPred.getD i 0 - if i ∈ peaks then 1 else 0) ^ 2)

/-- Spec side of C4, ordering term: the mean over the `N − 1` adjacent
pairs of `relu(−sign[i]·(pred[i+1] − pred[i]))`. -/
def specOrderingLoss (orderingSign : List ℚ) (yPred : List ℚ) : ℚ :=
  mean ((List.range (yPred.length - 1)).map fun i =>
    relu (-(orderingSign.getD i 0 * (yPred.getD (i + 1) 0 - yPred.getD i 0))))

/-! ## Model keys, registry, and runtime prediction
(`registry.ts`, `binaryOpennessModel.ts`, `smoothBlinkModel.ts`,
`opennessComputationService.ts`) -/

inductive Eye
  | combined
  | left
  | right
deriving Repr, DecidableEq

/-- The eye-variant string used in model keys. -/
def Eye.str : Eye → String
  | .combined => "combined"
  | .left => "left"
  | .right => "right"

/-- `withVersion` (registry.ts): the key string `` `${kind}:${eye}:v${v}` ``. -/
def withVersion (kind eye : String) (v : ℕ) : String :=
  kind ++ ":" ++ eye ++ ":v" ++ toString v

/-- `getKey` of the binary model (`VERSION = 1`). -/
def binKey (eye : Eye) : String := withVersion "binary" eye.str 1

/-- `getKey` of the smooth model (`VERSION = 1`). -/
def smoothKey (eye : Eye) : String := withVersion "smooth" eye.str 1

/-- A residual triple (`type Vec3 = [number, number, number]`). -/
def Vec3 := ℚ × ℚ × ℚ

/-- The model registry (`modelRegistry`): trained artifacts are opaque
prediction functions, `none` when no model is registered for a key. -/
def Registry := String → Option (Vec3 → ℚ)

/-- `Math.min(Math.max(val, 0), 1)` — the clamp used by both `predict`s. -/
def clampVal (x : ℚ) : ℚ := min (max x 0) 1

/-- `predict` of `binaryOpennessModel.ts` (lines 52–61): 0.5 when no model
is registered, else the model output clamped to `[0, 1]`. -/
def predictBinary (reg : Registry) (eye : Eye) (v : Vec3) : ℚ :=
  match reg (binKey eye) with
  | none => 1/2
  | some m => clampVal (m v)

/-- `predict` of `smoothBlinkModel.ts` (lines 159–167): the source returns
`NaN` to signal "no smooth model yet", rendered as `none`; otherwise the
clamped model output. -/
def predictSmooth (reg : Registry) (eye : Eye) (v : Vec3) : Option ℚ :=
  match reg (smoothKey eye) with
  | none => none
  | some m => some (clampVal (m v))

/-- `mapOpenness` (opennessComputationService.ts 374–378): try the smooth
prediction; on the `NaN` sentinel (`none`) fall back to the binary one. -/
def mapOpenness (reg : Registry) (v : Vec3) (eye : Eye) : ℚ :=
  match predictSmooth reg eye v with
  | some s => s
  | none => predictBinary reg eye v

/-! ## CalibrationCapture buffers (opennessComputationService.ts 64–132) -/

/-- The three residual components of one eye's latest encoder output. -/
structure Latents where
  u1 : ℚ
  u2 : ℚ
  u3 : ℚ

/-- `SampleMatrix`: three parallel rows of residual components. -/
def SampleMatrix := List ℚ × List ℚ × List ℚ

structure CalibrationBuffer where
  combined : Option SampleMatrix
  left : Option SampleMatrix
  right : Option SampleMatrix
  lastCombinedTS : Option ℚ
  lastLeftTS : Option ℚ
  lastRightTS : Option ℚ
  ongoing : Bool

/-- `makeBuffer()`. -/
def makeBuffer : CalibrationBuffer :=
  { combined := none, left := none, right := none, lastCombinedTS := none,
    lastLeftTS := none, lastRightTS := none, ongoing := false }

/-- `ensureMatrices`. -/
def ensureMatrices (b : CalibrationBuffer) : CalibrationBuffer :=
  { b with combined := some (b.combined.getD ([], [], [])),
           left := some (b.left.getD ([], [], [])),
           right := some (b.right.getD ([], [], [])) }

/-- The three `push` calls appending one sample to a matrix. -/
def pushSample (m : SampleMatrix) (l : Latents) : SampleMatrix :=
  (m.1 ++ [l.u1], m.2.1 ++ [l.u2], m.2.2 ++ [l.u3])

/-- `appendSamples` (lines 96–127): per variant, append and update the
last-seen timestamp exactly when the incoming timestamp is non-null and
differs from the recorded one (`combinedTS !== null && combinedTS !==
buffer.lastCombinedTS`, etc.). -/
def appendSamples (buffer : CalibrationBuffer) (combinedTS leftTS rightTS : Option ℚ)
    (latents latentsLeft latentsRight : Latents) : CalibrationBuffer :=
  let b0 := ensureMatrices buffer
  let b1 := if combinedTS ≠ none ∧ combinedTS ≠ b0.lastCombinedTS then
      { b0 with
        combined := b0.combined.map (fun m => pushSample m latents),
        lastCombinedTS := combinedTS }
    else b0
  let b2 := if leftTS ≠ none ∧ leftTS ≠ b1.lastLeftTS then
      { b1 with
        left := b1.left.map (fun m => pushSample m latentsLeft),
        lastLeftTS := leftTS }
    else b1
  let b3 := if rightTS ≠ none ∧ rightTS ≠ b2.lastRightTS then
      { b2 with
        right := b2.right.map (fun m => pushSample m latentsRight),
        lastRightTS := rightTS }
    else b2
  b3

/-- The number of stored samples in one variant of a buffer. -/
def rowsCount : Option SampleMatrix → ℕ
  | none => 0
  | some m => m.1.length

/-! ## Binary calibration (opennessComputationService.ts 257–270 and
`binaryOpennessModel.ts` `train`, lines 21–50, claim C8) -/

/-- `matToFrames` / `matrixToTensor`: rows of the 3×n matrix as triples. -/
def matToFrames (m : SampleMatrix) : List Vec3 :=
  (List.range m.1.length).map fun i => ((m.1.getD i 0, m.2.1.getD i 0, m.2.2.getD i 0) : Vec3)

/-- `down` in the binary `train`: select the columns at the first `k`
entries of a shuffled index sequence.
`tf.util.createShuffledIndices(n)` is an external uniform shuffle; it
enters the embedding as the parameter `shuffled` (a permutation of
`range n`). -/
def downsample (m : SampleMatrix) (shuffled : List ℕ) (k : ℕ) : SampleMatrix :=
  let idx := shuffled.take k
  (idx.map fun i => m.1.getD i 0, idx.map fun i => m.2.1.getD i 0,
    idx.map fun i => m.2.2.getD i 0)

/-- The training request the binary `train` submits to the external
capability: class-balanced samples (`k = min` of the class sizes), labels
`0` for closed and `1` for open, under the fixed binary key. -/
structure BinaryTrainReq where
  eye : Eye
  xs : List Vec3
  ys : List ℚ
  key : String

def trainBinaryReq (eye : Eye) (closedM openM : SampleMatrix)
    (shufC shufO : List ℕ) : BinaryTrainReq :=
  let k := min closedM.1.length openM.1.length
  let c := downsample closedM shufC k
  let o := downsample openM shufO k
  { eye := eye
    xs := matToFrames c ++ matToFrames o
    ys := List.replicate k 0 ++ List.replicate k 1
    key := binKey eye }

def getEyeMat (b : CalibrationBuffer) : Eye → Option SampleMatrix
  | .combined => b.combined
  | .left => b.left
  | .right => b.right

/-- One eye's gate of `calibrateBinary` (lines 257–270): the eye is trained
iff both its closed and open matrices are present with a non-empty first
row (`closedBuffer.x && openBuffer.x && closedBuffer.x[0].length &&
openBuffer.x[0].length`). -/
def binaryCallForEye (closedBuffer openBuffer : CalibrationBuffer) (eye : Eye) :
    Option (SampleMatrix × SampleMatrix) :=
  match getEyeMat closedBuffer eye, getEyeMat openBuffer eye with
  | some c, some o => if c.1.length ≠ 0 ∧ o.1.length ≠ 0 then some (c, o) else none
  | _, _ => none

/-- `calibrateBinary`: the three per-eye gates in source order. -/
def calibrateBinaryCalls (closedBuffer openBuffer : CalibrationBuffer) :
    List (Eye × SampleMatrix × SampleMatrix) :=
  [Eye.combined, Eye.left, Eye.right].foldr
    (fun eye acc =>
      match binaryCallForEye closedBuffer openBuffer eye with
      | some co => (eye, co.1, co.2) :: acc
      | none => acc) []

/-! ## Blink inference and smooth training (opennessComputationService.ts
274–291, claim C9) -/

/-- The training request `trainSmooth` receives (`BlinkTrainingData` plus
the eye and fixed options). -/
structure SmoothTrainCall where
  eye : Eye
  latents : SampleMatrix
  peaks : List ℕ
  valleys : List ℕ

/-- `runBlinkInferenceAndTrainForEye`: if the eye's blink matrix is missing
or empty, or labeling its binary-model predictions yields no peaks or no
valleys, the stage is a no-op; otherwise `trainSmooth` runs (the external
capability enters as `trainer`) and `modelRegistry.set` registers the
result under the smooth key.  The returned pair is the registry afterwards
and the training call made, if any.  (The `dispatchPlot` call publishes
plot data to the UI and does not affect the pipeline.) -/
def runBlinkInferenceAndTrainForEye (reg : Registry)
    (trainer : SmoothTrainCall → (Vec3 → ℚ)) (blinkBuffer : CalibrationBuffer)
    (eye : Eye) : Registry × Option SmoothTrainCall :=
  match getEyeMat blinkBuffer eye with
  | none => (reg, none)
  | some mat =>
    if mat.1.length = 0 then (reg, none)
    else
      let frames := matToFrames mat
      let pred := frames.map fun v => predictBinary reg eye v
      let e := labelBlinkExtrema pred OPEN_TH_FIXED CLOSE_TH_FIXED
      if e.peaks = [] ∨ e.valleys = [] then (reg, none)
      else
        let call : SmoothTrainCall := ⟨eye, mat, e.peaks, e.valleys⟩
        (fun key => if key = smoothKey eye then some (trainer call) else reg key,
          some call)

/-! ## Theorems -/

/-! ### Bridging lemmas for C3 -/

theorem emaFwdAux_length (alpha acc : ℚ) (xs : List ℚ) :
    (emaFwdAux alpha acc xs).length = xs.length := by
  induction xs generalizing acc with
  | nil => rfl
  | cons x xs ih => simp [emaFwdAux, ih]

theorem emaFwd_length (alpha : ℚ) (l : List ℚ) :
    (emaFwd alpha l).length = l.length := by
  cases l with
  | nil => rfl
  | cons x xs => simp [emaFwd, emaFwdAux_length]

theorem emaFwdAux_getD_zero (alpha acc y : ℚ) (t : List ℚ) :
    (emaFwdAux alpha acc (y :: t)).getD 0 0 = alpha * y + (1 - alpha) * acc := by
  simp [emaFwdAux]

theorem emaFwdAux_getD_succ (alpha : ℚ) (xs : List ℚ) (acc : ℚ) (i : ℕ)
    (h : i + 1 < xs.length) :
    (emaFwdAux alpha acc xs).getD (i + 1) 0 =
      alpha * xs.getD (i + 1) 0 + (1 - alpha) * (emaFwdAux alpha acc xs).getD i 0 := by
  induction xs generalizing acc i with
  | nil => simp at h
  | cons x t ih =>
    cases i with
    | zero =>
      cases t with
      | nil => simp at h
      | cons y t2 => simp [emaFwdAux]
    | succ j =>
      have hj : j + 1 < t.length := by simpa using h
      simpa [emaFwdAux] using ih _ j hj

theorem emaFwd_getD_zero (alpha : ℚ) (x : ℚ) (xs : List ℚ) :
    (emaFwd alpha (x :: xs)).getD 0 0 = x := by
  simp [emaFwd]

theorem emaFwd_getD_succ (alpha : ℚ) (l : List ℚ) (i : ℕ) (h : i + 1 < l.length) :
    (emaFwd alpha l).getD (i + 1) 0 =
      alpha * l.getD (i + 1) 0 + (1 - alpha) * (emaFwd alpha l).getD i 0 := by
  cases l with
  | nil => simp at h
  | cons x xs =>
    cases i with
    | zero =>
      cases xs with
      | nil => simp at h
      | cons y t => simp [emaFwd, emaFwdAux]
    | succ j =>
      have hj : j + 1 < xs.length := by simpa using h
      simpa [emaFwd] using emaFwdAux_getD_succ alpha xs x j hj

/-- The accumulator loop computes exactly the spec recurrence. -/
theorem emaFwd_getD_eq_specFwd (alpha : ℚ) (l : List ℚ) (i : ℕ) (h : i < l.length) :
    (emaFwd alpha l).getD i 0 = specFwd (fun j => l.getD j 0) alpha i := by
  induction i with
  | zero =>
    cases l with
    | nil => simp at h
    | cons x xs => simp [emaFwd, specFwd]
  | succ j ih =>
    have hj : j < l.length := Nat.lt_of_succ_lt h
    rw [emaFwd_getD_succ alpha l j h, ih hj]
    rfl

theorem specFwd_congr (f g : ℕ → ℚ) (alpha : ℚ) (i : ℕ) (h : ∀ j ≤ i, f j = g j) :
    specFwd f alpha i = specFwd g alpha i := by
  induction i with
  | zero => simpa [specFwd] using h 0 le_rfl
  | succ j ih =>
    rw [specFwd, specFwd, h (j + 1) le_rfl,
      ih fun k hk => h k (le_trans hk (Nat.le_succ j))]

/-- The source's median window and the spec's median description coincide
definitionally. -/
theorem medianWindow_eq_specMedian (pred : List ℚ) (medWin i : ℕ) :
    medianWindow pred medWin i = specMedian pred medWin i := rfl

theorem reverse_getD (l : List ℚ) (i : ℕ) (h : i < l.length) :
    l.reverse.getD i 0 = l.getD (l.length - 1 - i) 0 := by
  have h1 : i < l.reverse.length := by simpa using h
  have h2 : l.length - 1 - i < l.length := by omega
  rw [List.getD_eq_getElem _ _ h1, List.getD_eq_getElem _ _ h2, List.getElem_reverse]

theorem smoothSeries_ne_nil_eq (pred : List ℚ) (medWin : ℕ) (alpha : ℚ)
    (h : pred ≠ []) :
    smoothSeries pred medWin alpha =
      (List.zipWith (fun v b => (v + b) / 2)
        (emaFwd alpha ((List.range pred.length).map (medianWindow pred medWin)))
        ((emaFwd alpha
          ((List.range pred.length).map (medianWindow pred medWin)).reverse).reverse)).map
        clamp01 := by
  rw [smoothSeries, if_neg (by simpa using h)]

/-- Claim C3: `smoothSeries` with `medWin = 5`, `α = 0.35` equals the spec's
reference smoother (median pass, causal and anti-causal EMA, clamped
average), and the output has the input's length (empty input included). -/
theorem c3_smoothSeries_matches_spec (pred : List ℚ) :
    smoothSeries pred 5 (7/20) = specSmooth pred 5 (7/20) ∧
    (smoothSeries pred 5 (7/20)).length = pred.length := by
  rcases eq_or_ne pred [] with h | h
  · subst h; exact ⟨rfl, rfl⟩
  have hnpos : 0 < pred.length := List.length_pos.mpr h
  set n := pred.length with hn
  set med := (List.range n).map (medianWindow pred 5) with hmed
  have hmed_len : med.length = n := by simp [hmed]
  have hmed_getD : ∀ j < n, med.getD j 0 = specMedian pred 5 j := by
    intro j hj
    have hj2 : j < med.length := by omega
    rw [List.getD_eq_getElem _ _ hj2]
    simp [hmed, medianWindow_eq_specMedian]
  have hfwd_len : (emaFwd (7/20) med).length = n := by
    rw [emaFwd_length, hmed_len]
  have hbwd_len : ((emaFwd (7/20) med.reverse).reverse).length = n := by
    simp [emaFwd_length, hmed_len]
  have hfwd : ∀ i < n, (emaFwd (7/20) med).getD i 0 = specFwd (specMedian pred 5) (7/20) i := by
    intro i hi
    rw [emaFwd_getD_eq_specFwd _ _ _ (by omega)]
    exact specFwd_congr _ _ _ _ fun j hj => hmed_getD j (by omega)
  have hbwd : ∀ i < n,
      ((emaFwd (7/20) med.reverse).reverse).getD i 0 = specBwd n (specMedian pred 5) (7/20) i := by
    intro i hi
    have hlen : (emaFwd (7/20) med.reverse).length = n := by simp [emaFwd_length, hmed_len]
    rw [reverse_getD _ _ (by omega), hlen,
      emaFwd_getD_eq_specFwd _ _ _ (by simp [hmed_len]; omega)]
    refine specFwd_congr _ _ _ _ fun j hj => ?_
    rw [reverse_getD _ _ (by omega), hmed_len, hmed_getD (n - 1 - j) (by omega)]
  have hout_len :
      ((List.zipWith (fun v b => (v + b) / 2) (emaFwd (7/20) med)
        ((emaFwd (7/20) med.reverse).reverse)).map clamp01).length = n := by
    simp [List.length_zipWith, hfwd_len, hbwd_len]
  have hspec_len : (specSmooth pred 5 (7/20)).length = n := by simp [specSmooth]
  have hmain : smoothSeries pred 5 (7/20) = specSmooth pred 5 (7/20) := by
    rw [smoothSeries_ne_nil_eq pred 5 (7/20) h, ← hmed]
    refine List.ext_getElem (by rw [hout_len, hspec_len]) fun i h1 h2 => ?_
    have hi : i < n := by rw [← hout_len]; exact h1
    have hiz : i < (List.zipWith (fun v b => (v + b) / 2) (emaFwd (7/20) med)
        ((emaFwd (7/20) med.reverse).reverse)).length := by
      simp [List.length_zipWith, hfwd_len, hbwd_len]; omega
    rw [List.getElem_map, List.getElem_zipWith]
    have e1 : (emaFwd (7/20) med)[i] = specFwd (specMedian pred 5) (7/20) i := by
      rw [← List.getD_eq_getElem _ 0 (by omega), hfwd i hi]
    have e2 : ((emaFwd (7/20) med.reverse).reverse)[i] = specBwd n (specMedian pred 5) (7/20) i := by
      rw [← List.getD_eq_getElem _ 0 (by omega), hbwd i hi]
    rw [e1, e2]
    simp [specSmooth]
  exact ⟨hmain, by rw [hmain, hspec_len]⟩

/-! ### The code's segment finalization agrees with the spec's -/

theorem jsSlice_eq_map_range (l : List ℚ) (s k : ℕ) (h : s + k ≤ l.length) :
    jsSlice l s (s + k) = (List.range' s k).map fun i => l.getD i 0 := by
  refine List.ext_getElem ?_ fun j h1 h2 => ?_
  · simp [jsSlice, List.length_take, List.length_drop]
    omega
  · have hj : j < k := by
      have h3 := h1
      simp [jsSlice, List.length_take, List.length_drop] at h3
      omega
    have hsj : s + j < l.length := by omega
    rw [List.getElem_map]
    simp only [jsSlice]
    rw [List.getElem_take, List.getElem_drop, List.getElem_range']
    rw [List.getD_eq_getElem _ _ (by simpa using hsj)]
    simp [Nat.mul_comm]

theorem finishSegment_eq_specFinish (smooth : List ℚ) (s : ℕ) (e : ℤ)
    (prevOpen : Bool) (pk vl : List ℕ)
    (hs : s < smooth.length) (he : e < (smooth.length : ℤ)) :
    finishSegment smooth s e prevOpen pk vl = specFinish smooth s e prevOpen pk vl := by
  by_cases hguard : (s : ℤ) > e
  · have hk : (e + 1 - (s : ℤ)).toNat = 0 := by omega
    rw [finishSegment, if_pos hguard, specFinish]
    simp [hk]
  · push_neg at hguard
    set k := (e + 1 - (s : ℤ)).toNat with hkdef
    have hsk : s + k ≤ smooth.length := by omega
    have he1 : (e + 1).toNat = s + k := by omega
    have hslice : jsSlice smooth s (e + 1).toNat =
        (List.range' s k).map fun i => smooth.getD i 0 := by
      rw [he1]; exact jsSlice_eq_map_range smooth s k hsk
    have hidx : (List.range' s k).filter (fun i => decide (i < smooth.length)) =
        List.range' s k := by
      rw [List.filter_eq_self]
      intro i hi
      rcases List.mem_range'.mp hi with ⟨j, hj, rfl⟩
      simp only [decide_eq_true_eq]
      omega
    rw [finishSegment, if_neg (by omega), specFinish]
    simp only [hslice, hidx]

/-! ### Bisimulation between the code scan and the spec scan (claim C2)

The code keeps two counters and zeroes the inactive one along the way; the
spec keeps one run counter per state.  The relation states that the
inactive code counter is always zero and the active one is the spec run.
The case lemmas below characterize one step of each scan under each guard
combination. -/

theorem scanStep_closed_inc_fire (t1 t2 : ℚ) (m : ℕ) (sm : List ℚ) (st : ScanSt)
    (i : ℕ) (hst : st.stOpen = false) (hy : sm.getD i 0 ≥ t1)
    (hfire : st.overRun + 1 ≥ m) :
    scanStep t1 t2 m sm st i =
      { stOpen := true, segStart := i + 1 - m, overRun := 0, underRun := 0,
        peaks := (finishSegment sm st.segStart ((i : ℤ) - m) false st.peaks st.valleys).1,
        valleys := (finishSegment sm st.segStart ((i : ℤ) - m) false st.peaks st.valleys).2 } := by
  simp [scanStep, hst, hy, hfire, -List.getD_eq_getElem?_getD]

theorem scanStep_closed_inc_nofire (t1 t2 : ℚ) (m : ℕ) (sm : List ℚ) (st : ScanSt)
    (i : ℕ) (hst : st.stOpen = false) (hy : sm.getD i 0 ≥ t1)
    (hfire : ¬ st.overRun + 1 ≥ m) :
    scanStep t1 t2 m sm st i = { st with overRun := st.overRun + 1, underRun := 0 } := by
  simp [scanStep, hst, hy, hfire, -List.getD_eq_getElem?_getD]

theorem scanStep_closed_reset (t1 t2 : ℚ) (m : ℕ) (sm : List ℚ) (st : ScanSt)
    (i : ℕ) (hst : st.stOpen = false) (hy : ¬ sm.getD i 0 ≥ t1) (hm : 0 < m) :
    scanStep t1 t2 m sm st i = { st with overRun := 0 } := by
  have hnf : ¬ (m ≤ 0) := by omega
  simp [scanStep, hst, hy, hnf, -List.getD_eq_getElem?_getD]

theorem scanStep_open_inc_fire (t1 t2 : ℚ) (m : ℕ) (sm : List ℚ) (st : ScanSt)
    (i : ℕ) (hst : st.stOpen = true) (hy : sm.getD i 0 ≤ t2)
    (hfire : st.underRun + 1 ≥ m) :
    scanStep t1 t2 m sm st i =
      { stOpen := false, segStart := i + 1 - m, overRun := 0, underRun := 0,
        peaks := (finishSegment sm st.segStart ((i : ℤ) - m) true st.peaks st.valleys).1,
        valleys := (finishSegment sm st.segStart ((i : ℤ) - m) true st.peaks st.valleys).2 } := by
  simp [scanStep, hst, hy, hfire, -List.getD_eq_getElem?_getD]

theorem scanStep_open_inc_nofire (t1 t2 : ℚ) (m : ℕ) (sm : List ℚ) (st : ScanSt)
    (i : ℕ) (hst : st.stOpen = true) (hy : sm.getD i 0 ≤ t2)
    (hfire : ¬ st.underRun + 1 ≥ m) :
    scanStep t1 t2 m sm st i = { st with underRun := st.underRun + 1, overRun := 0 } := by
  simp [scanStep, hst, hy, hfire, -List.getD_eq_getElem?_getD]

theorem scanStep_open_reset (t1 t2 : ℚ) (m : ℕ) (sm : List ℚ) (st : ScanSt)
    (i : ℕ) (hst : st.stOpen = true) (hy : ¬ sm.getD i 0 ≤ t2) (hm : 0 < m) :
    scanStep t1 t2 m sm st i = { st with underRun := 0 } := by
  have hnf : ¬ (m ≤ 0) := by omega
  simp [scanStep, hst, hy, hnf, -List.getD_eq_getElem?_getD]

theorem specScanStep_closed_inc_fire (t1 t2 : ℚ) (m : ℕ) (sm : List ℚ)
    (st : SpecScanSt) (i : ℕ) (hst : st.isOpen = false) (hy : sm.getD i 0 ≥ t1)
    (hfire : st.run + 1 ≥ m) :
    specScanStep t1 t2 m sm st i =
      { isOpen := true, segStart := i + 1 - m, run := 0,
        peaks := (specFinish sm st.segStart ((i : ℤ) - m) false st.peaks st.valleys).1,
        valleys := (specFinish sm st.segStart ((i : ℤ) - m) false st.peaks st.valleys).2 } := by
  simp [specScanStep, hst, hy, hfire, -List.getD_eq_getElem?_getD]

theorem specScanStep_closed_inc_nofire (t1 t2 : ℚ) (m : ℕ) (sm : List ℚ)
    (st : SpecScanSt) (i : ℕ) (hst : st.isOpen = false) (hy : sm.getD i 0 ≥ t1)
    (hfire : ¬ st.run + 1 ≥ m) :
    specScanStep t1 t2 m sm st i = { st with run := st.run + 1 } := by
  simp [specScanStep, hst, hy, hfire, -List.getD_eq_getElem?_getD]

theorem specScanStep_closed_reset (t1 t2 : ℚ) (m : ℕ) (sm : List ℚ)
    (st : SpecScanSt) (i : ℕ) (hst : st.isOpen = false) (hy : ¬ sm.getD i 0 ≥ t1)
    (hm : 0 < m) :
    specScanStep t1 t2 m sm st i = { st with run := 0 } := by
  have hnf : ¬ (m ≤ 0) := by omega
  simp [specScanStep, hst, hy, hnf, -List.getD_eq_getElem?_getD]

theorem specScanStep_open_inc_fire (t1 t2 : ℚ) (m : ℕ) (sm : List ℚ)
    (st : SpecScanSt) (i : ℕ) (hst : st.isOpen = true) (hy : sm.getD i 0 ≤ t2)
    (hfire : st.run + 1 ≥ m) :
    specScanStep t1 t2 m sm st i =
      { isOpen := false, segStart := i + 1 - m, run := 0,
        peaks := (specFinish sm st.segStart ((i : ℤ) - m) true st.peaks st.valleys).1,
        valleys := (specFinish sm st.segStart ((i : ℤ) - m) true st.peaks st.valleys).2 } := by
  simp [specScanStep, hst, hy, hfire, -List.getD_eq_getElem?_getD]

theorem specScanStep_open_inc_nofire (t1 t2 : ℚ) (m : ℕ) (sm : List ℚ)
    (st : SpecScanSt) (i : ℕ) (hst : st.isOpen = true) (hy : sm.getD i 0 ≤ t2)
    (hfire : ¬ st.run + 1 ≥ m) :
    specScanStep t1 t2 m sm st i = { st with run := st.run + 1 } := by
  simp [specScanStep, hst, hy, hfire, -List.getD_eq_getElem?_getD]

theorem specScanStep_open_reset (t1 t2 : ℚ) (m : ℕ) (sm : List ℚ)
    (st : SpecScanSt) (i : ℕ) (hst : st.isOpen = true) (hy : ¬ sm.getD i 0 ≤ t2)
    (hm : 0 < m) :
    specScanStep t1 t2 m sm st i = { st with run := 0 } := by
  have hnf : ¬ (m ≤ 0) := by omega
  simp [specScanStep, hst, hy, hnf, -List.getD_eq_getElem?_getD]

theorem scanStep_segStart_le (t1 t2 : ℚ) (sm : List ℚ) (c : ScanSt) (n : ℕ)
    (h : c.segStart ≤ n) : (scanStep t1 t2 3 sm c n).segStart ≤ n := by
  cases hco : c.stOpen with
  | false =>
    by_cases hy : sm.getD n 0 ≥ t1
    · by_cases hfire : c.overRun + 1 ≥ 3
      · rw [scanStep_closed_inc_fire t1 t2 3 sm c n hco hy hfire]
        show n + 1 - 3 ≤ n
        omega
      · rw [scanStep_closed_inc_nofire t1 t2 3 sm c n hco hy hfire]
        exact h
    · rw [scanStep_closed_reset t1 t2 3 sm c n hco hy (by omega)]
      exact h
  | true =>
    by_cases hy : sm.getD n 0 ≤ t2
    · by_cases hfire : c.underRun + 1 ≥ 3
      · rw [scanStep_open_inc_fire t1 t2 3 sm c n hco hy hfire]
        show n + 1 - 3 ≤ n
        omega
      · rw [scanStep_open_inc_nofire t1 t2 3 sm c n hco hy hfire]
        exact h
    · rw [scanStep_open_reset t1 t2 3 sm c n hco hy (by omega)]
      exact h

theorem scanStep_bisim (t1 t2 : ℚ) (sm : List ℚ) (c : ScanSt) (s : SpecScanSt)
    (n : ℕ) (hn : n < sm.length) (hseg : c.segStart < sm.length)
    (hrel : ScanRel c s) :
    ScanRel (scanStep t1 t2 3 sm c n) (specScanStep t1 t2 3 sm s n) := by
  obtain ⟨co, cseg, cov, cun, cpk, cvl⟩ := c
  obtain ⟨so, sseg, srun, spk, svl⟩ := s
  obtain ⟨h1, h2, h3, h4, h5, h6⟩ := hrel
  simp only at h1 h2 h3 h4 h5 h6 hseg
  subst h1 h2 h3 h4
  have hfin : ∀ w : Bool,
      finishSegment sm cseg ((n : ℤ) - ((3 : ℕ) : ℤ)) w cpk cvl =
        specFinish sm cseg ((n : ℤ) - ((3 : ℕ) : ℤ)) w cpk cvl :=
    fun w => finishSegment_eq_specFinish sm cseg _ w cpk cvl hseg (by omega)
  cases co with
  | false =>
    obtain ⟨hu0, hor⟩ := h6 rfl
    subst hu0 hor
    by_cases hy : sm.getD n 0 ≥ t1
    · by_cases hfire : cov + 1 ≥ 3
      · rw [scanStep_closed_inc_fire t1 t2 3 sm _ n rfl hy hfire,
          specScanStep_closed_inc_fire t1 t2 3 sm _ n rfl hy hfire]
        exact ⟨rfl, rfl, congrArg Prod.fst (hfin false), congrArg Prod.snd (hfin false),
          fun _ => ⟨rfl, rfl⟩, fun hcon => Bool.noConfusion hcon⟩
      · rw [scanStep_closed_inc_nofire t1 t2 3 sm _ n rfl hy hfire,
          specScanStep_closed_inc_nofire t1 t2 3 sm _ n rfl hy hfire]
        exact ⟨rfl, rfl, rfl, rfl, fun hcon => Bool.noConfusion hcon,
          fun _ => ⟨rfl, rfl⟩⟩
    · rw [scanStep_closed_reset t1 t2 3 sm _ n rfl hy (by omega),
        specScanStep_closed_reset t1 t2 3 sm _ n rfl hy (by omega)]
      exact ⟨rfl, rfl, rfl, rfl, fun hcon => Bool.noConfusion hcon,
        fun _ => ⟨rfl, rfl⟩⟩
  | true =>
    obtain ⟨ho0, hur⟩ := h5 rfl
    subst ho0 hur
    by_cases hy : sm.getD n 0 ≤ t2
    · by_cases hfire : cun + 1 ≥ 3
      · rw [scanStep_open_inc_fire t1 t2 3 sm _ n rfl hy hfire,
          specScanStep_open_inc_fire t1 t2 3 sm _ n rfl hy hfire]
        exact ⟨rfl, rfl, congrArg Prod.fst (hfin true), congrArg Prod.snd (hfin true),
          fun hcon => Bool.noConfusion hcon, fun _ => ⟨rfl, rfl⟩⟩
      · rw [scanStep_open_inc_nofire t1 t2 3 sm _ n rfl hy hfire,
          specScanStep_open_inc_nofire t1 t2 3 sm _ n rfl hy hfire]
        exact ⟨rfl, rfl, rfl, rfl, fun _ => ⟨rfl, rfl⟩,
          fun hcon => Bool.noConfusion hcon⟩
    · rw [scanStep_open_reset t1 t2 3 sm _ n rfl hy (by omega),
        specScanStep_open_reset t1 t2 3 sm _ n rfl hy (by omega)]
      exact ⟨rfl, rfl, rfl, rfl, fun _ => ⟨rfl, rfl⟩,
        fun hcon => Bool.noConfusion hcon⟩

theorem scanStateAt_succ (t1 t2 : ℚ) (sm : List ℚ) (n : ℕ) :
    scanStateAt t1 t2 sm (n + 1) = scanStep t1 t2 3 sm (scanStateAt t1 t2 sm n) n := by
  rw [scanStateAt, scanStateAt, List.range_succ, List.foldl_append, List.foldl_cons,
    List.foldl_nil]

theorem specScanStateAt_succ (t1 t2 : ℚ) (sm : List ℚ) (n : ℕ) :
    specScanStateAt t1 t2 sm (n + 1) =
      specScanStep t1 t2 3 sm (specScanStateAt t1 t2 sm n) n := by
  rw [specScanStateAt, specScanStateAt, List.range_succ, List.foldl_append,
    List.foldl_cons, List.foldl_nil]

theorem scanStateAt_segStart (t1 t2 : ℚ) (sm : List ℚ) :
    ∀ n, (scanStateAt t1 t2 sm n).segStart ≤ n - 1 := by
  intro n
  induction n with
  | zero => simp [scanStateAt, scanInit]
  | succ m ih =>
    rw [scanStateAt_succ]
    have := scanStep_segStart_le t1 t2 sm (scanStateAt t1 t2 sm m) m (by omega)
    omega

theorem scanStateAt_bisim (t1 t2 : ℚ) (sm : List ℚ) :
    ∀ n, n ≤ sm.length →
      ScanRel (scanStateAt t1 t2 sm n) (specScanStateAt t1 t2 sm n) := by
  intro n
  induction n with
  | zero =>
    intro _
    exact ⟨rfl, rfl, rfl, rfl, fun _ => ⟨rfl, rfl⟩, fun _ => ⟨rfl, rfl⟩⟩
  | succ m ih =>
    intro hm
    rw [scanStateAt_succ, specScanStateAt_succ]
    have hseg := scanStateAt_segStart t1 t2 sm m
    exact scanStep_bisim t1 t2 sm _ _ m (by omega) (by omega) (ih (by omega))

/-- The code's raw scan output (before the V–P–V post-processing) equals the
spec procedure's, for any smoothed input and thresholds. -/
theorem scanExtrema_eq_specScanExtrema (sm : List ℚ) (t1 t2 : ℚ) :
    scanExtrema sm t1 t2 = specScanExtrema sm t1 t2 := by
  rcases eq_or_ne sm [] with h | h
  · subst h; rfl
  · have hlen : 0 < sm.length := List.length_pos.mpr h
    obtain ⟨h1, h2, h3, h4, _, _⟩ := scanStateAt_bisim t1 t2 sm sm.length le_rfl
    have hseg := scanStateAt_segStart t1 t2 sm sm.length
    simp only [scanExtrema, specScanExtrema]
    rw [h1, h2, h3, h4]
    rw [h2] at hseg
    exact finishSegment_eq_specFinish sm _ _ _ _ _ (by omega) (by omega)

theorem smoothSeries_length (pred : List ℚ) (medWin : ℕ) (alpha : ℚ) :
    (smoothSeries pred medWin alpha).length = pred.length := by
  rcases eq_or_ne pred [] with h | h
  · subst h; rfl
  · rw [smoothSeries_ne_nil_eq pred medWin alpha h]
    simp [List.length_zipWith, emaFwd_length]

/-- Claim C2: for every non-empty input, `labelBlinkExtrema` at the fixed
thresholds 0.8/0.2 computes exactly the spec's reference scan (steps 2–5:
mid-based initial state, `minRun = 3` hysteresis counting, plateau-midpoint
finalization, final-segment finalization), followed by the code's step-6
post-processing.  The raw scan equals the spec procedure on the smoothed
sequence. -/
theorem claimC2_labelBlinkExtrema_matches_spec_scan (pred : List ℚ) (h : pred ≠ []) :
    scanExtrema (smoothSeries pred 5 (7/20)) OPEN_TH_FIXED CLOSE_TH_FIXED =
      specScanExtrema (smoothSeries pred 5 (7/20)) OPEN_TH_FIXED CLOSE_TH_FIXED ∧
    labelBlinkExtrema pred OPEN_TH_FIXED CLOSE_TH_FIXED =
      { smooth := smoothSeries pred 5 (7/20)
        peaks := (postProcess
          (specScanExtrema (smoothSeries pred 5 (7/20)) OPEN_TH_FIXED CLOSE_TH_FIXED).1
          (specScanExtrema (smoothSeries pred 5 (7/20)) OPEN_TH_FIXED CLOSE_TH_FIXED).2).1
        valleys := (postProcess
          (specScanExtrema (smoothSeries pred 5 (7/20)) OPEN_TH_FIXED CLOSE_TH_FIXED).1
          (specScanExtrema (smoothSeries pred 5 (7/20)) OPEN_TH_FIXED CLOSE_TH_FIXED).2).2 } := by
  have hsc := scanExtrema_eq_specScanExtrema (smoothSeries pred 5 (7/20))
    OPEN_TH_FIXED CLOSE_TH_FIXED
  refine ⟨hsc, ?_⟩
  have hlen : (smoothSeries pred 5 (7/20)).length = pred.length :=
    smoothSeries_length pred 5 (7/20)
  have hne : ¬ (smoothSeries pred 5 (7/20)).isEmpty = true := by
    rw [List.isEmpty_iff]
    intro hcon
    apply h
    have := hlen
    rw [hcon] at this
    exact List.eq_nil_of_length_eq_zero this.symm
  rw [labelBlinkExtrema, if_neg hne, hsc]

/-- Witness for C2 at the concrete input `[0, 0, 0, 1]`. -/
theorem claimC2_witness :
    scanExtrema (smoothSeries [0, 0, 0, 1] 5 (7/20)) OPEN_TH_FIXED CLOSE_TH_FIXED =
      specScanExtrema (smoothSeries [0, 0, 0, 1] 5 (7/20)) OPEN_TH_FIXED CLOSE_TH_FIXED ∧
    labelBlinkExtrema [0, 0, 0, 1] OPEN_TH_FIXED CLOSE_TH_FIXED =
      { smooth := smoothSeries [0, 0, 0, 1] 5 (7/20)
        peaks := (postProcess
          (specScanExtrema (smoothSeries [0, 0, 0, 1] 5 (7/20)) OPEN_TH_FIXED CLOSE_TH_FIXED).1
          (specScanExtrema (smoothSeries [0, 0, 0, 1] 5 (7/20)) OPEN_TH_FIXED CLOSE_TH_FIXED).2).1
        valleys := (postProcess
          (specScanExtrema (smoothSeries [0, 0, 0, 1] 5 (7/20)) OPEN_TH_FIXED CLOSE_TH_FIXED).1
          (specScanExtrema (smoothSeries [0, 0, 0, 1] 5 (7/20)) OPEN_TH_FIXED CLOSE_TH_FIXED).2).2 } :=
  claimC2_labelBlinkExtrema_matches_spec_scan [0, 0, 0, 1] (by simp)

section ConcreteEvaluation

attribute [local semireducible] Rat.add Rat.mul Rat.inv Rat.sub

set_option maxRecDepth 8000 in
/-- Claim C1 (falsified by the code): on `predVPVP` the raw scan yields
peaks `[10, 29]` and valleys `[0, 17]`.  The last valley (17) precedes the
last peak (29), so by the spec's step-6 rule ("drop the trailing valley
when the last valley index follows the last peak index") nothing should be
dropped, and the merged sequence valley 0, peak 10, valley 17, peak 29
would alternate.  The code's post-processing tests
`valleys[valleys.length-1] < peaks[peaks.length-1]` — the comparison is
inverted — and therefore drops valley 17, returning the non-alternating
merged sequence valley 0, peak 10, peak 29 (a valley paired with no
following peak was removed instead of kept). -/
theorem claimC1_postprocess_drops_paired_valley :
    scanExtrema (smoothSeries predVPVP 5 (7/20)) OPEN_TH_FIXED CLOSE_TH_FIXED =
      ([10, 29], [0, 17]) ∧
    (labelBlinkExtrema predVPVP OPEN_TH_FIXED CLOSE_TH_FIXED).peaks = [10, 29] ∧
    (labelBlinkExtrema predVPVP OPEN_TH_FIXED CLOSE_TH_FIXED).valleys = [0] ∧
    (17 : ℕ) < 29 := by
  decide

end ConcreteEvaluation

/-! ### Bounds on the labeler's output indices (claim C10) -/

theorem foldl_max_choice (l : List ℚ) (a : ℚ) :
    l.foldl max a = a ∨ l.foldl max a ∈ l := by
  induction l generalizing a with
  | nil => exact Or.inl rfl
  | cons x xs ih =>
    rw [List.foldl_cons]
    rcases ih (max a x) with h | h
    · rw [h]
      rcases max_choice a x with h2 | h2
      · exact Or.inl h2
      · exact Or.inr (by rw [h2]; exact List.mem_cons_self x xs)
    · exact Or.inr (List.mem_cons_of_mem x h)

theorem foldl_min_choice (l : List ℚ) (a : ℚ) :
    l.foldl min a = a ∨ l.foldl min a ∈ l := by
  induction l generalizing a with
  | nil => exact Or.inl rfl
  | cons x xs ih =>
    rw [List.foldl_cons]
    rcases ih (min a x) with h | h
    · rw [h]
      rcases min_choice a x with h2 | h2
      · exact Or.inl h2
      · exact Or.inr (by rw [h2]; exact List.mem_cons_self x xs)
    · exact Or.inr (List.mem_cons_of_mem x h)

theorem headD_mem (l : List ℚ) (h : l ≠ []) (d : ℚ) : l.headD d ∈ l := by
  cases l with
  | nil => exact absurd rfl h
  | cons x xs => exact List.mem_cons_self x xs

theorem mem_jsSlice_exists (smooth : List ℚ) (s m : ℕ) (x : ℚ)
    (hx : x ∈ jsSlice smooth s m) :
    ∃ i0, s ≤ i0 ∧ i0 < m ∧ i0 < smooth.length ∧ smooth.getD i0 0 = x := by
  obtain ⟨j, hj, hval⟩ := List.mem_iff_getElem.mp hx
  have hj2 : j < m - s ∧ j < smooth.length - s := by
    have := hj
    simp [jsSlice, List.length_take, List.length_drop] at this
    exact this
  refine ⟨s + j, by omega, by omega, by omega, ?_⟩
  rw [List.getD_eq_getElem _ _ (by omega), ← hval]
  simp only [jsSlice]
  rw [List.getElem_take, List.getElem_drop]

/-- In a non-degenerate finalization, the plateau filter is nonempty: the
extremal value is attained at an in-range index of the segment. -/
theorem plateau_ne_nil (smooth : List ℚ) (s : ℕ) (e : ℤ) (hguard : ¬ (s : ℤ) > e)
    (q : ℚ) (hq : q ∈ jsSlice smooth s (e + 1).toNat) :
    ∃ i0, i0 ∈ ((List.range' s ((e + 1 - (s : ℤ)).toNat)).filter
        fun i => decide (i < smooth.length)) ∧ smooth.getD i0 0 = q := by
  obtain ⟨i0, hs0, hm0, hlt0, hval0⟩ := mem_jsSlice_exists smooth s (e + 1).toNat q hq
  refine ⟨i0, ?_, hval0⟩
  rw [List.mem_filter]
  constructor
  · rw [List.mem_range']
    exact ⟨i0 - s, by omega, by omega⟩
  · simp [hlt0]

theorem getD_mid_mem (l : List ℕ) (h : l ≠ []) : l.getD (l.length / 2) 0 ∈ l := by
  have hl : 0 < l.length := List.length_pos.mpr h
  rw [List.getD_eq_getElem _ _ (by omega)]
  exact List.getElem_mem _

theorem finishSegment_forall_lt (smooth : List ℚ) (s : ℕ) (e : ℤ) (p : Bool)
    (pk vl : List ℕ) (hpk : ∀ j ∈ pk, j < smooth.length)
    (hvl : ∀ j ∈ vl, j < smooth.length) :
    (∀ j ∈ (finishSegment smooth s e p pk vl).1, j < smooth.length) ∧
    (∀ j ∈ (finishSegment smooth s e p pk vl).2, j < smooth.length) := by
  by_cases hguard : (s : ℤ) > e
  · rw [finishSegment, if_pos hguard]
    exact ⟨hpk, hvl⟩
  · by_cases hemp : jsSlice smooth s (e + 1).toNat = []
    · have heq : finishSegment smooth s e p pk vl = (pk, vl) := by
        rw [finishSegment, if_neg hguard]
        simp [hemp]
      rw [heq]
      exact ⟨hpk, hvl⟩
    · have hslne : (jsSlice smooth s (e + 1).toNat).isEmpty = false := by
        simpa [List.isEmpty_iff] using hemp
      have hpush : ∀ q : ℚ, q ∈ jsSlice smooth s (e + 1).toNat →
          (((List.range' s ((e + 1 - (s : ℤ)).toNat)).filter
              fun i => decide (i < smooth.length)).filter
                fun i => decide (smooth.getD i 0 = q)).getD
            ((((List.range' s ((e + 1 - (s : ℤ)).toNat)).filter
              fun i => decide (i < smooth.length)).filter
                fun i => decide (smooth.getD i 0 = q)).length / 2) 0 < smooth.length := by
        intro q hq
        obtain ⟨i0, hi0, hval0⟩ := plateau_ne_nil smooth s e hguard q hq
        have hmem : i0 ∈ ((List.range' s ((e + 1 - (s : ℤ)).toNat)).filter
            fun i => decide (i < smooth.length)).filter
              fun i => decide (smooth.getD i 0 = q) := by
          rw [List.mem_filter]
          exact ⟨hi0, by simpa using hval0⟩
        have hne2 : (((List.range' s ((e + 1 - (s : ℤ)).toNat)).filter
            fun i => decide (i < smooth.length)).filter
              fun i => decide (smooth.getD i 0 = q)) ≠ [] := by
          intro hcon
          rw [hcon] at hmem
          exact absurd hmem (List.not_mem_nil i0)
        have hmid := getD_mid_mem _ hne2
        have h1 := (List.mem_filter.mp hmid).1
        have h2 := (List.mem_filter.mp h1).2
        simpa using h2
      have hmaxmem : (jsSlice smooth s (e + 1).toNat).foldl max
          ((jsSlice smooth s (e + 1).toNat).headD 0) ∈ jsSlice smooth s (e + 1).toNat := by
        rcases foldl_max_choice (jsSlice smooth s (e + 1).toNat)
            ((jsSlice smooth s (e + 1).toNat).headD 0) with h | h
        · rw [h]; exact headD_mem _ hemp 0
        · exact h
      have hminmem : (jsSlice smooth s (e + 1).toNat).foldl min
          ((jsSlice smooth s (e + 1).toNat).headD 0) ∈ jsSlice smooth s (e + 1).toNat := by
        rcases foldl_min_choice (jsSlice smooth s (e + 1).toNat)
            ((jsSlice smooth s (e + 1).toNat).headD 0) with h | h
        · rw [h]; exact headD_mem _ hemp 0
        · exact h
      rcases p with _ | _
      · have heqp : (finishSegment smooth s e false pk vl).1 = pk := by
          rw [finishSegment, if_neg hguard]
          simp [hslne]
        have heqv : (finishSegment smooth s e false pk vl).2 =
            vl ++ [(((List.range' s ((e + 1 - (s : ℤ)).toNat)).filter
              fun i => decide (i < smooth.length)).filter
                fun i => decide (smooth.getD i 0 =
                  (jsSlice smooth s (e + 1).toNat).foldl min
                    ((jsSlice smooth s (e + 1).toNat).headD 0))).getD
              ((((List.range' s ((e + 1 - (s : ℤ)).toNat)).filter
                fun i => decide (i < smooth.length)).filter
                  fun i => decide (smooth.getD i 0 =
                    (jsSlice smooth s (e + 1).toNat).foldl min
                      ((jsSlice smooth s (e + 1).toNat).headD 0))).length / 2) 0] := by
          rw [finishSegment, if_neg hguard]
          simp [hslne]
        constructor <;> intro j hj
        · rw [heqp] at hj
          exact hpk j hj
        · rw [heqv, List.mem_append] at hj
          rcases hj with hj | hj
          · exact hvl j hj
          · rw [List.mem_singleton] at hj
            subst hj
            exact hpush _ hminmem
      · have heqp : (finishSegment smooth s e true pk vl).1 =
            pk ++ [(((List.range' s ((e + 1 - (s : ℤ)).toNat)).filter
              fun i => decide (i < smooth.length)).filter
                fun i => decide (smooth.getD i 0 =
                  (jsSlice smooth s (e + 1).toNat).foldl max
                    ((jsSlice smooth s (e + 1).toNat).headD 0))).getD
              ((((List.range' s ((e + 1 - (s : ℤ)).toNat)).filter
                fun i => decide (i < smooth.length)).filter
                  fun i => decide (smooth.getD i 0 =
                    (jsSlice smooth s (e + 1).toNat).foldl max
                      ((jsSlice smooth s (e + 1).toNat).headD 0))).length / 2) 0] := by
          rw [finishSegment, if_neg hguard]
          simp [hslne]
        have heqv : (finishSegment smooth s e true pk vl).2 = vl := by
          rw [finishSegment, if_neg hguard]
          simp [hslne]
        constructor <;> intro j hj
        · rw [heqp, List.mem_append] at hj
          rcases hj with hj | hj
          · exact hpk j hj
          · rw [List.mem_singleton] at hj
            subst hj
            exact hpush _ hmaxmem
        · rw [heqv] at hj
          exact hvl j hj

theorem scanStateAt_forall_lt (t1 t2 : ℚ) (sm : List ℚ) :
    ∀ n, (∀ j ∈ (scanStateAt t1 t2 sm n).peaks, j < sm.length) ∧
      (∀ j ∈ (scanStateAt t1 t2 sm n).valleys, j < sm.length) := by
  intro n
  induction n with
  | zero =>
    constructor <;> intro j hj <;>
      exact absurd hj (List.not_mem_nil j)
  | succ m ih =>
    rw [scanStateAt_succ]
    obtain ⟨ihp, ihv⟩ := ih
    cases hco : (scanStateAt t1 t2 sm m).stOpen with
    | false =>
      by_cases hy : sm.getD m 0 ≥ t1
      · by_cases hfire : (scanStateAt t1 t2 sm m).overRun + 1 ≥ 3
        · rw [scanStep_closed_inc_fire t1 t2 3 sm _ m hco hy hfire]
          exact finishSegment_forall_lt sm _ _ false _ _ ihp ihv
        · rw [scanStep_closed_inc_nofire t1 t2 3 sm _ m hco hy hfire]
          exact ⟨ihp, ihv⟩
      · rw [scanStep_closed_reset t1 t2 3 sm _ m hco hy (by omega)]
        exact ⟨ihp, ihv⟩
    | true =>
      by_cases hy : sm.getD m 0 ≤ t2
      · by_cases hfire : (scanStateAt t1 t2 sm m).underRun + 1 ≥ 3
        · rw [scanStep_open_inc_fire t1 t2 3 sm _ m hco hy hfire]
          exact finishSegment_forall_lt sm _ _ true _ _ ihp ihv
        · rw [scanStep_open_inc_nofire t1 t2 3 sm _ m hco hy hfire]
          exact ⟨ihp, ihv⟩
      · rw [scanStep_open_reset t1 t2 3 sm _ m hco hy (by omega)]
        exact ⟨ihp, ihv⟩

theorem scanExtrema_forall_lt (sm : List ℚ) (t1 t2 : ℚ) :
    (∀ j ∈ (scanExtrema sm t1 t2).1, j < sm.length) ∧
    (∀ j ∈ (scanExtrema sm t1 t2).2, j < sm.length) := by
  obtain ⟨hp, hv⟩ := scanStateAt_forall_lt t1 t2 sm sm.length
  simp only [scanExtrema]
  exact finishSegment_forall_lt sm _ _ _ _ _ hp hv

theorem scanStateAt_deepInv (t1 t2 : ℚ) (sm : List ℚ)
    (hmt : (t1 + t2) / 2 ≤ t1) (htm : t2 < (t1 + t2) / 2) :
    ∀ n, DeepInv n (scanStateAt t1 t2 sm n) := by
  intro n
  induction n with
  | zero => exact ⟨Or.inl rfl, fun _ => Or.inl rfl, fun _ => Or.inl rfl⟩
  | succ m ih =>
    rw [scanStateAt_succ]
    obtain ⟨i1, i2, i3⟩ := ih
    cases hco : (scanStateAt t1 t2 sm m).stOpen with
    | false =>
      by_cases hy : sm.getD m 0 ≥ t1
      · have hm0 : m ≠ 0 := by
          intro hcon
          subst hcon
          have hinit : (scanStateAt t1 t2 sm 0).stOpen =
              decide (sm.getD 0 0 ≥ (t1 + t2) / 2) := rfl
          rw [hco] at hinit
          exact of_decide_eq_false hinit.symm (le_trans hmt hy)
        by_cases hfire : (scanStateAt t1 t2 sm m).overRun + 1 ≥ 3
        · rw [scanStep_closed_inc_fire t1 t2 3 sm _ m hco hy hfire]
          refine ⟨?_, fun hcon => Bool.noConfusion hcon, fun _ => Or.inl rfl⟩
          show m + 1 - 3 = 0 ∨ (m + 1 - 3) + 3 ≤ m + 1
          omega
        · rw [scanStep_closed_inc_nofire t1 t2 3 sm _ m hco hy hfire]
          refine ⟨?_, ?_, fun hcon => Bool.noConfusion (hco ▸ hcon)⟩
          · show (scanStateAt t1 t2 sm m).segStart = 0 ∨
              (scanStateAt t1 t2 sm m).segStart + 3 ≤ m + 1
            rcases i1 with h | h
            · exact Or.inl h
            · exact Or.inr (by omega)
          · intro _
            refine Or.inr ?_
            show (scanStateAt t1 t2 sm m).segStart +
              ((scanStateAt t1 t2 sm m).overRun + 1) + 1 ≤ m + 1
            rcases i2 hco with h0 | hbound
            · rcases i1 with hseg0 | hseg3
              · rw [hseg0, h0]
                omega
              · omega
            · omega
      · rw [scanStep_closed_reset t1 t2 3 sm _ m hco hy (by omega)]
        refine ⟨?_, fun _ => Or.inl rfl, fun hcon => Bool.noConfusion (hco ▸ hcon)⟩
        show (scanStateAt t1 t2 sm m).segStart = 0 ∨
          (scanStateAt t1 t2 sm m).segStart + 3 ≤ m + 1
        rcases i1 with h | h
        · exact Or.inl h
        · exact Or.inr (by omega)
    | true =>
      by_cases hy : sm.getD m 0 ≤ t2
      · have hm0 : m ≠ 0 := by
          intro hcon
          subst hcon
          have hinit : (scanStateAt t1 t2 sm 0).stOpen =
              decide (sm.getD 0 0 ≥ (t1 + t2) / 2) := rfl
          rw [hco] at hinit
          have hge : sm.getD 0 0 ≥ (t1 + t2) / 2 := of_decide_eq_true hinit.symm
          exact absurd (le_trans hge hy) (not_le.mpr htm)
        by_cases hfire : (scanStateAt t1 t2 sm m).underRun + 1 ≥ 3
        · rw [scanStep_open_inc_fire t1 t2 3 sm _ m hco hy hfire]
          refine ⟨?_, fun _ => Or.inl rfl, fun hcon => Bool.noConfusion hcon⟩
          show m + 1 - 3 = 0 ∨ (m + 1 - 3) + 3 ≤ m + 1
          omega
        · rw [scanStep_open_inc_nofire t1 t2 3 sm _ m hco hy hfire]
          refine ⟨?_, fun hcon => Bool.noConfusion (hco ▸ hcon), ?_⟩
          · show (scanStateAt t1 t2 sm m).segStart = 0 ∨
              (scanStateAt t1 t2 sm m).segStart + 3 ≤ m + 1
            rcases i1 with h | h
            · exact Or.inl h
            · exact Or.inr (by omega)
          · intro _
            refine Or.inr ?_
            show (scanStateAt t1 t2 sm m).segStart +
              ((scanStateAt t1 t2 sm m).underRun + 1) + 1 ≤ m + 1
            rcases i3 hco with h0 | hbound
            · rcases i1 with hseg0 | hseg3
              · rw [hseg0, h0]
                omega
              · omega
            · omega
      · rw [scanStep_open_reset t1 t2 3 sm _ m hco hy (by omega)]
        refine ⟨?_, fun hcon => Bool.noConfusion (hco ▸ hcon), fun _ => Or.inl rfl⟩
        show (scanStateAt t1 t2 sm m).segStart = 0 ∨
          (scanStateAt t1 t2 sm m).segStart + 3 ≤ m + 1
        rcases i1 with h | h
        · exact Or.inl h
        · exact Or.inr (by omega)

/-- A state flip at scan index `n` (with thresholds satisfying
`closeTh < mid ≤ openTh`) implies `n ≥ 3` and a nonempty finalized
segment: `segStart ≤ n - 3 = endIdx < length`. -/
theorem scan_transition_facts (t1 t2 : ℚ) (sm : List ℚ)
    (hmt : (t1 + t2) / 2 ≤ t1) (htm : t2 < (t1 + t2) / 2) (n : ℕ)
    (hflip : (scanStateAt t1 t2 sm (n + 1)).stOpen ≠ (scanStateAt t1 t2 sm n).stOpen) :
    3 ≤ n ∧ (scanStateAt t1 t2 sm n).segStart + 3 ≤ n := by
  obtain ⟨i1, i2, i3⟩ := scanStateAt_deepInv t1 t2 sm hmt htm n
  rw [scanStateAt_succ] at hflip
  cases hco : (scanStateAt t1 t2 sm n).stOpen with
  | false =>
    by_cases hy : sm.getD n 0 ≥ t1
    · by_cases hfire : (scanStateAt t1 t2 sm n).overRun + 1 ≥ 3
      · have hrun := i2 hco
        rcases hrun with h0 | hbound
        · omega
        · have : 2 ≤ (scanStateAt t1 t2 sm n).overRun := by omega
          omega
      · rw [scanStep_closed_inc_nofire t1 t2 3 sm _ n hco hy hfire, hco] at hflip
        exact absurd rfl hflip
    · rw [scanStep_closed_reset t1 t2 3 sm _ n hco hy (by omega), hco] at hflip
      exact absurd rfl hflip
  | true =>
    by_cases hy : sm.getD n 0 ≤ t2
    · by_cases hfire : (scanStateAt t1 t2 sm n).underRun + 1 ≥ 3
      · have hrun := i3 hco
        rcases hrun with h0 | hbound
        · omega
        · have : 2 ≤ (scanStateAt t1 t2 sm n).underRun := by omega
          omega
      · rw [scanStep_open_inc_nofire t1 t2 3 sm _ n hco hy hfire, hco] at hflip
        exact absurd rfl hflip
    · rw [scanStep_open_reset t1 t2 3 sm _ n hco hy (by omega), hco] at hflip
      exact absurd rfl hflip

theorem postProcess_fst_cases (pk vl : List ℕ) :
    (postProcess pk vl).1 = pk ∨ (postProcess pk vl).1 = pk.tail := by
  rw [postProcess]
  by_cases h : pk ≠ [] ∧ vl ≠ []
  · rw [if_pos h]
    by_cases h2 : pk.headD 0 < vl.headD 0
    · right
      show (if pk.headD 0 < vl.headD 0 then pk.tail else pk) = pk.tail
      rw [if_pos h2]
    · left
      show (if pk.headD 0 < vl.headD 0 then pk.tail else pk) = pk
      rw [if_neg h2]
  · rw [if_neg h]
    exact Or.inl rfl

theorem postProcess_snd_cases (pk vl : List ℕ) :
    (postProcess pk vl).2 = vl ∨ (postProcess pk vl).2 = vl.dropLast := by
  rw [postProcess]
  by_cases h : pk ≠ [] ∧ vl ≠ []
  · rw [if_pos h]
    show (match (if pk.headD 0 < vl.headD 0 then pk.tail else pk).getLast? with
      | none => vl
      | some pl => if vl.getLastD 0 < pl then vl.dropLast else vl) = vl ∨
      (match (if pk.headD 0 < vl.headD 0 then pk.tail else pk).getLast? with
      | none => vl
      | some pl => if vl.getLastD 0 < pl then vl.dropLast else vl) = vl.dropLast
    rcases hL : (if pk.headD 0 < vl.headD 0 then pk.tail else pk).getLast? with _ | pl
    · left; rfl
    · by_cases h3 : vl.getLastD 0 < pl
      · right
        show (if vl.getLastD 0 < pl then vl.dropLast else vl) = vl.dropLast
        rw [if_pos h3]
      · left
        show (if vl.getLastD 0 < pl then vl.dropLast else vl) = vl
        rw [if_neg h3]
  · rw [if_neg h]
    exact Or.inl rfl

/-- Claim C10: with the fixed thresholds 0.8/0.2, every peak and valley
index returned by `labelBlinkExtrema` is a valid position of the input
(`0 ≤ i < length`, the `≥ 0` part being intrinsic to `ℕ` indices); every
state transition of the scan happens at index `n ≥ minRun = 3` with the
finalized segment `[segStart, n - 3]` nonempty (`segStart + 3 ≤ n`; its
end `n - 3 < length` since `n < length`), and after a full scan of a
non-empty input the remaining segment `[segStart, length - 1]` is within
bounds — so the plateau selection always acts on a nonempty in-range
plateau and the labeler never reads out of range. -/
theorem claimC10_labeler_safety (pred : List ℚ) :
    (∀ j ∈ (labelBlinkExtrema pred OPEN_TH_FIXED CLOSE_TH_FIXED).peaks, j < pred.length) ∧
    (∀ j ∈ (labelBlinkExtrema pred OPEN_TH_FIXED CLOSE_TH_FIXED).valleys, j < pred.length) ∧
    (∀ n, (scanStateAt OPEN_TH_FIXED CLOSE_TH_FIXED (smoothSeries pred 5 (7/20)) (n + 1)).stOpen ≠
        (scanStateAt OPEN_TH_FIXED CLOSE_TH_FIXED (smoothSeries pred 5 (7/20)) n).stOpen →
      3 ≤ n ∧
        (scanStateAt OPEN_TH_FIXED CLOSE_TH_FIXED (smoothSeries pred 5 (7/20)) n).segStart + 3 ≤ n) ∧
    (pred ≠ [] →
      (scanStateAt OPEN_TH_FIXED CLOSE_TH_FIXED (smoothSeries pred 5 (7/20))
        (smoothSeries pred 5 (7/20)).length).segStart ≤ pred.length - 1) := by
  have hsl := smoothSeries_length pred 5 (7/20)
  have hmt : (OPEN_TH_FIXED + CLOSE_TH_FIXED) / 2 ≤ OPEN_TH_FIXED := by
    norm_num [OPEN_TH_FIXED, CLOSE_TH_FIXED]
  have htm : CLOSE_TH_FIXED < (OPEN_TH_FIXED + CLOSE_TH_FIXED) / 2 := by
    norm_num [OPEN_TH_FIXED, CLOSE_TH_FIXED]
  have hbounds : ∀ j, (j ∈ (labelBlinkExtrema pred OPEN_TH_FIXED CLOSE_TH_FIXED).peaks →
      j < pred.length) ∧
      (j ∈ (labelBlinkExtrema pred OPEN_TH_FIXED CLOSE_TH_FIXED).valleys → j < pred.length) := by
    intro j
    by_cases hne : (smoothSeries pred 5 (7/20)).isEmpty = true
    · rw [labelBlinkExtrema, if_pos hne]
      exact ⟨fun hj => absurd hj (List.not_mem_nil j),
        fun hj => absurd hj (List.not_mem_nil j)⟩
    · have hpk : (labelBlinkExtrema pred OPEN_TH_FIXED CLOSE_TH_FIXED).peaks =
          (postProcess (scanExtrema (smoothSeries pred 5 (7/20)) OPEN_TH_FIXED CLOSE_TH_FIXED).1
            (scanExtrema (smoothSeries pred 5 (7/20)) OPEN_TH_FIXED CLOSE_TH_FIXED).2).1 := by
        rw [labelBlinkExtrema, if_neg hne]
      have hvl : (labelBlinkExtrema pred OPEN_TH_FIXED CLOSE_TH_FIXED).valleys =
          (postProcess (scanExtrema (smoothSeries pred 5 (7/20)) OPEN_TH_FIXED CLOSE_TH_FIXED).1
            (scanExtrema (smoothSeries pred 5 (7/20)) OPEN_TH_FIXED CLOSE_TH_FIXED).2).2 := by
        rw [labelBlinkExtrema, if_neg hne]
      obtain ⟨hp, hv⟩ :=
        scanExtrema_forall_lt (smoothSeries pred 5 (7/20)) OPEN_TH_FIXED CLOSE_TH_FIXED
      constructor
      · intro hj
        rw [hpk] at hj
        rcases postProcess_fst_cases
            (scanExtrema (smoothSeries pred 5 (7/20)) OPEN_TH_FIXED CLOSE_TH_FIXED).1
            (scanExtrema (smoothSeries pred 5 (7/20)) OPEN_TH_FIXED CLOSE_TH_FIXED).2 with
          hcase | hcase
        · rw [hcase] at hj
          exact hsl ▸ hp j hj
        · rw [hcase] at hj
          exact hsl ▸ hp j (List.mem_of_mem_tail hj)
      · intro hj
        rw [hvl] at hj
        rcases postProcess_snd_cases
            (scanExtrema (smoothSeries pred 5 (7/20)) OPEN_TH_FIXED CLOSE_TH_FIXED).1
            (scanExtrema (smoothSeries pred 5 (7/20)) OPEN_TH_FIXED CLOSE_TH_FIXED).2 with
          hcase | hcase
        · rw [hcase] at hj
          exact hsl ▸ hv j hj
        · rw [hcase] at hj
          exact hsl ▸ hv j (List.dropLast_subset _ hj)
  refine ⟨fun j hj => (hbounds j).1 hj, fun j hj => (hbounds j).2 hj, ?_, ?_⟩
  · intro n hflip
    exact scan_transition_facts OPEN_TH_FIXED CLOSE_TH_FIXED (smoothSeries pred 5 (7/20))
      hmt htm n hflip
  · intro hne
    have hlen : 0 < pred.length := List.length_pos.mpr hne
    have := scanStateAt_segStart OPEN_TH_FIXED CLOSE_TH_FIXED (smoothSeries pred 5 (7/20))
      (smoothSeries pred 5 (7/20)).length
    omega

section ConcreteEvaluationC10

attribute [local semireducible] Rat.add Rat.mul Rat.inv Rat.sub

set_option maxRecDepth 8000 in
/-- Witness for C10: on `predVPVP`, peak 10 is in range, the transition at
scan index 10 satisfies the `minRun` bound with a nonempty segment, and the
final segment start is in range. -/
theorem claimC10_witness :
    (10 : ℕ) < predVPVP.length ∧ 3 ≤ 10 ∧
    (scanStateAt OPEN_TH_FIXED CLOSE_TH_FIXED (smoothSeries predVPVP 5 (7/20)) 10).segStart +
      3 ≤ 10 ∧
    (scanStateAt OPEN_TH_FIXED CLOSE_TH_FIXED (smoothSeries predVPVP 5 (7/20))
      (smoothSeries predVPVP 5 (7/20)).length).segStart ≤ predVPVP.length - 1 :=
  ⟨(claimC10_labeler_safety predVPVP).1 10 (by decide),
   ((claimC10_labeler_safety predVPVP).2.2.1 10 (by decide)).1,
   ((claimC10_labeler_safety predVPVP).2.2.1 10 (by decide)).2,
   (claimC10_labeler_safety predVPVP).2.2.2 (by decide)⟩

end ConcreteEvaluationC10

theorem foldl_set_length (L : List ℕ) (arr : List ℤ) (sgn : ℤ) :
    (L.foldl (fun a j => a.set j sgn) arr).length = arr.length := by
  induction L generalizing arr with
  | nil => rfl
  | cons j L ih => rw [List.foldl_cons, ih, List.length_set]

theorem foldl_set_getD (L : List ℕ) (arr : List ℤ) (sgn : ℤ) (i : ℕ) :
    (L.foldl (fun a j => a.set j sgn) arr).getD i 0 =
      if i ∈ L ∧ i < arr.length then sgn else arr.getD i 0 := by
  induction L generalizing arr with
  | nil =>
    rw [List.foldl_nil, if_neg]
    rintro ⟨hmem, _⟩
    exact absurd hmem (List.not_mem_nil i)
  | cons j L ih =>
    rw [List.foldl_cons, ih, List.length_set]
    by_cases hL : i ∈ L ∧ i < arr.length
    · rw [if_pos hL, if_pos ⟨List.mem_cons_of_mem j hL.1, hL.2⟩]
    · rw [if_neg hL]
      by_cases hlen : i < arr.length
      · by_cases hji : j = i
        · subst hji
          rw [if_pos ⟨List.mem_cons_self j L, hlen⟩]
          rw [List.getD_eq_getElem _ _ (by simpa using hlen), List.getElem_set,
            if_pos rfl]
        · have : ¬ (i ∈ j :: L ∧ i < arr.length) := by
            rintro ⟨hmem, _⟩
            rcases List.mem_cons.mp hmem with h | h
            · exact hji h.symm
            · exact hL ⟨h, hlen⟩
          rw [if_neg this]
          rw [List.getD_eq_getElem _ _ (by simpa using hlen), List.getElem_set,
            if_neg hji, List.getD_eq_getElem _ _ hlen]
      · have h2 : ¬ (i ∈ j :: L ∧ i < arr.length) := fun hcon => hlen hcon.2
        rw [if_neg h2]
        rw [List.getD_eq_default _ _ (by simpa using Nat.le_of_not_lt hlen),
          List.getD_eq_default _ _ (Nat.le_of_not_lt hlen)]

theorem setRange_length (arr : List ℤ) (s e : ℕ) (sgn : ℤ) :
    (setRange arr s e sgn).length = arr.length :=
  foldl_set_length _ arr sgn

theorem setRange_getD (arr : List ℤ) (s e : ℕ) (sgn : ℤ) (i : ℕ) :
    (setRange arr s e sgn).getD i 0 =
      if s ≤ i ∧ i < e ∧ i < arr.length then sgn else arr.getD i 0 := by
  rw [setRange, foldl_set_getD]
  congr 1
  simp only [List.mem_range', eq_iff_iff]
  constructor
  · rintro ⟨⟨k, hk, rfl⟩, hlen⟩
    exact ⟨by omega, by omega, hlen⟩
  · rintro ⟨h1, h2, h3⟩
    exact ⟨⟨i - s, by omega, by omega⟩, h3⟩

theorem signFold_fst_length (P : List (ℕ × ℕ)) (arr : List ℤ) (r : Bool) :
    ((P.foldl signFoldStep (arr, r)).1).length = arr.length := by
  induction P generalizing arr r with
  | nil => rfl
  | cons p P ih =>
    rw [List.foldl_cons]
    rw [signFoldStep]
    rw [ih]
    exact setRange_length arr p.1 p.2 _

theorem intervalSignAt_zero_of_lt (E : List ℕ) (r : Bool) (i : ℕ)
    (h : ∀ x ∈ E, i < x) : intervalSignAt E r i = 0 := by
  induction E generalizing r with
  | nil => rfl
  | cons a E ih =>
    cases E with
    | nil => rfl
    | cons b rest =>
      rw [intervalSignAt]
      rw [if_neg]
      · exact ih (! r) fun x hx => h x (List.mem_cons_of_mem a hx)
      · rintro ⟨h1, _⟩
        exact absurd (h a (List.mem_cons_self a _)) (by omega)

theorem signFold_getD (E : List ℕ) (r : Bool) (arr : List ℤ) (i : ℕ)
    (hsort : E.Sorted (· ≤ ·)) :
    ((List.zip E E.tail).foldl signFoldStep (arr, r)).1.getD i 0 =
      if intervalSignAt E r i = 0 then arr.getD i 0 else
        if i < arr.length then intervalSignAt E r i else 0 := by
  induction E generalizing r arr with
  | nil =>
    rw [show intervalSignAt [] r i = 0 from rfl, if_pos rfl]
    rfl
  | cons a E ih =>
    cases E with
    | nil =>
      rw [show intervalSignAt [a] r i = 0 from rfl, if_pos rfl]
      rfl
    | cons b rest =>
      have hzip : List.zip (a :: b :: rest) (a :: b :: rest).tail =
          (a, b) :: List.zip (b :: rest) (b :: rest).tail := rfl
      rw [hzip, List.foldl_cons]
      have hstep : signFoldStep (arr, r) (a, b) =
          (setRange arr a b (if r then 1 else -1), ! r) := rfl
      rw [hstep]
      have hsort2 : (b :: rest).Sorted (· ≤ ·) := hsort.tail
      rw [ih (! r) _ hsort2, setRange_length]
      have hble : ∀ x ∈ b :: rest, b ≤ x := by
        intro x hx
        rcases List.mem_cons.mp hx with h | h
        · omega
        · exact List.rel_of_sorted_cons hsort2 x h
      by_cases hcov : a ≤ i ∧ i < b
      · have hz2 : intervalSignAt (b :: rest) (! r) i = 0 :=
          intervalSignAt_zero_of_lt _ _ _ fun x hx => by
            have := hble x hx
            omega
        have hfull : intervalSignAt (a :: b :: rest) r i = (if r then 1 else -1) := by
          rw [intervalSignAt, if_pos hcov]
        rw [hz2, if_pos rfl, hfull, setRange_getD]
        by_cases hlen : i < arr.length
        · cases r <;> simp [hcov.1, hcov.2, hlen]
        · have hdef : arr[i]?.getD 0 = 0 := by
            simpa using List.getD_eq_default arr 0 (Nat.le_of_not_lt hlen)
          cases r <;> simp [hlen, hdef]
      · have hfull : intervalSignAt (a :: b :: rest) r i =
            intervalSignAt (b :: rest) (! r) i := by
          rw [intervalSignAt, if_neg hcov]
        have hset : (setRange arr a b (if r then 1 else -1)).getD i 0 = arr.getD i 0 := by
          rw [setRange_getD, if_neg (fun hcon => hcov ⟨hcon.1, hcon.2.1⟩)]
        rw [hfull, hset]

/-- The ordering-sign array has length `N − 1` and carries, at every
position, the alternating interval sign. -/
theorem orderingSignArr_spec (N : ℕ) (valleys peaks : List ℕ) :
    (orderingSignArr N valleys peaks).length = N - 1 ∧
    (∀ i, i < N - 1 → (orderingSignArr N valleys peaks).getD i 0 =
      intervalSignAt ((valleys ++ peaks).insertionSort (· ≤ ·))
        (valleys.contains (((valleys ++ peaks).insertionSort (· ≤ ·)).headD 0)) i) := by
  rw [orderingSignArr]
  by_cases h2 : 2 ≤ ((valleys ++ peaks).insertionSort (· ≤ ·)).length
  · rw [if_pos h2]
    constructor
    · rw [signFold_fst_length, List.length_replicate]
    · intro i hi
      rw [signFold_getD _ _ _ _ (List.sorted_insertionSort _ _)]
      by_cases hz : intervalSignAt ((valleys ++ peaks).insertionSort (· ≤ ·))
          (valleys.contains (((valleys ++ peaks).insertionSort (· ≤ ·)).headD 0)) i = 0
      · rw [if_pos hz, hz]
        simp
      · rw [if_neg hz, if_pos (by simpa using hi)]
  · rw [if_neg h2]
    constructor
    · exact List.length_replicate _ _
    · intro i hi
      rcases hE : (valleys ++ peaks).insertionSort (· ≤ ·) with _ | ⟨a, _ | ⟨b, rest⟩⟩
      · simp [intervalSignAt]
      · simp [intervalSignAt]
      · rw [hE] at h2
        simp at h2

/-- Claim C5 (falsified by the code): for `valleys = [0, 5]`,
`peaks = [2, 3]` over `N = 7` samples, the sorted extrema are
`[0, 2, 3, 5]` and the interval `[3, 5)` starts at the peak 3, so the
claim's rule assigns it `−1`; the code's alternating `rising` flag (which
toggles once per interval regardless of what the interval starts at)
assigns it `+1`. -/
theorem claimC5_counterexample :
    orderingSignArr 7 [0, 5] [2, 3] = [1, 1, -1, 1, 1, 0] ∧
    (([0, 5] ++ [2, 3] : List ℕ).insertionSort (· ≤ ·) = [0, 2, 3, 5]) ∧
    (3 : ℕ) ∈ ([2, 3] : List ℕ) ∧
    (orderingSignArr 7 [0, 5] [2, 3]).getD 3 0 = 1 ∧
    ((1 : ℤ) ≠ -1) := by
  decide

/-- Claim C5 as amended: the array has length `N − 1`; every position in
an interval between consecutive sorted extrema gets the alternating sign
(`+1` first iff the smallest extremum is a valley, the sign toggling at
every interval — which agrees with the claim's start-based rule exactly
when the sorted extrema alternate valley/peak); positions outside every
interval get 0.  In particular for `peaks = [40]`, `valleys = [10, 70]`
(over 80 samples) the array is `+1` on `[10, 40)`, `−1` on `[40, 70)`, 0
elsewhere. -/
theorem claimC5_ordering_sign_amended (N : ℕ) (valleys peaks : List ℕ) :
    (orderingSignArr N valleys peaks).length = N - 1 ∧
    (∀ i, i < N - 1 → (orderingSignArr N valleys peaks).getD i 0 =
      intervalSignAt ((valleys ++ peaks).insertionSort (· ≤ ·))
        (valleys.contains (((valleys ++ peaks).insertionSort (· ≤ ·)).headD 0)) i) ∧
    (∀ i, i < 79 → (orderingSignArr 80 [10, 70] [40]).getD i 0 =
      if 10 ≤ i ∧ i < 40 then 1 else if 40 ≤ i ∧ i < 70 then -1 else 0) := by
  obtain ⟨hlen, hchar⟩ := orderingSignArr_spec N valleys peaks
  exact ⟨hlen, hchar, by decide⟩

/-- Witness for the amended C5 at `N = 7`, `valleys = [0, 5]`,
`peaks = [2, 3]`, position 4. -/
theorem claimC5_amended_witness :
    (orderingSignArr 7 [0, 5] [2, 3]).length = 6 ∧
    (orderingSignArr 7 [0, 5] [2, 3]).getD 4 0 =
      intervalSignAt (([0, 5] ++ [2, 3] : List ℕ).insertionSort (· ≤ ·))
        (([0, 5] : List ℕ).contains
          ((([0, 5] ++ [2, 3] : List ℕ).insertionSort (· ≤ ·)).headD 0)) 4 :=
  ⟨(claimC5_ordering_sign_amended 7 [0, 5] [2, 3]).1,
   (claimC5_ordering_sign_amended 7 [0, 5] [2, 3]).2.1 4 (by decide)⟩

theorem zipWith_map_same (f : ℚ → ℚ → ℚ) (g h : ℕ → ℚ) (l : List ℕ) :
    List.zipWith f (l.map g) (l.map h) = l.map fun x => f (g x) (h x) := by
  induction l with
  | nil => rfl
  | cons x xs ih => simp [ih]

theorem zipWith_eq_map_range (f : ℚ → ℚ → ℚ) (l1 l2 : List ℚ) :
    List.zipWith f l1 l2 = (List.range (min l1.length l2.length)).map
      fun i => f (l1.getD i 0) (l2.getD i 0) := by
  refine List.ext_getElem (by simp [List.length_zipWith]) fun i h1 h2 => ?_
  have hi : i < min l1.length l2.length := by
    simpa [List.length_zipWith] using h1
  rw [List.getElem_map, List.getElem_zipWith, List.getElem_range]
  rw [List.getD_eq_getElem _ _ (by omega), List.getD_eq_getElem _ _ (by omega)]

/-- Claim C4: the smooth-blink training loss decomposes as the spec's
anchor term plus half the ordering term, and zero-sign pairs contribute
nothing. -/
theorem claimC4_composite_loss (orderingSign : List ℚ) (peaks valleys : List ℕ)
    (yPred : List ℚ) (hlen : orderingSign.length = yPred.length - 1) :
    compositeLoss orderingSign peaks valleys yPred =
      specAnchorLoss peaks valleys yPred +
        (1/2) * specOrderingLoss orderingSign yPred ∧
    (∀ i, orderingSign.getD i 0 = 0 →
      relu (-(orderingSign.getD i 0 * (yPred.getD (i + 1) 0 - yPred.getD i 0))) = 0) := by
  constructor
  · have hanchor : List.zipWith (fun t p => (t - p) ^ 2)
        ((peaks ++ valleys).map fun i => if i ∈ peaks then (1 : ℚ) else 0)
        ((peaks ++ valleys).map fun i => yPred.getD i 0) =
        (peaks ++ valleys).map fun i =>
          (yPred.getD i 0 - if i ∈ peaks then 1 else 0) ^ 2 := by
      rw [zipWith_map_same]
      refine List.map_congr_left fun i _ => ?_
      ring
    have hord : List.zipWith (fun s d => relu (-(s * d))) orderingSign
        (List.zipWith (fun a b => a - b) (yPred.drop 1)
          (yPred.take (yPred.length - 1))) =
        (List.range (yPred.length - 1)).map fun i =>
          relu (-(orderingSign.getD i 0 * (yPred.getD (i + 1) 0 - yPred.getD i 0))) := by
      refine List.ext_getElem ?_ fun i h1 h2 => ?_
      · simp [List.length_zipWith, hlen]
      · have hi : i < yPred.length - 1 := by simpa using h2
        have hb1 : i < orderingSign.length := by omega
        have hb2 : 1 + i < yPred.length := by omega
        have hb3 : i < yPred.length := by omega
        rw [List.getElem_zipWith, List.getElem_zipWith, List.getElem_drop,
          List.getElem_take, List.getElem_map, List.getElem_range,
          ← List.getD_eq_getElem orderingSign 0 hb1,
          ← List.getD_eq_getElem yPred 0 hb2, ← List.getD_eq_getElem yPred 0 hb3,
          Nat.add_comm 1 i]
    simp only [compositeLoss, specAnchorLoss, specOrderingLoss]
    rw [hanchor, hord]
    ring
  · intro i h0
    rw [h0]
    simp [relu]

/-- Witness for C4 at a concrete configuration. -/
theorem claimC4_witness :
    compositeLoss [1, 0, -1] [1] [0, 3] [0, 1, 1/2, 0] =
      specAnchorLoss [1] [0, 3] [0, 1, 1/2, 0] +
        (1/2) * specOrderingLoss [1, 0, -1] [0, 1, 1/2, 0] ∧
    (∀ i, ([1, 0, -1] : List ℚ).getD i 0 = 0 →
      relu (-(([1, 0, -1] : List ℚ).getD i 0 *
        (([0, 1, 1/2, 0] : List ℚ).getD (i + 1) 0 -
          ([0, 1, 1/2, 0] : List ℚ).getD i 0))) = 0) :=
  claimC4_composite_loss [1, 0, -1] [1] [0, 3] [0, 1, 1/2, 0] rfl

/-- Claim C6: `mapOpenness` returns the smooth model's clamped prediction
when one is registered; otherwise the binary model's clamped prediction
when one is registered; and exactly 0.5 when neither is. -/
theorem claimC6_mapOpenness_fallback (reg : Registry) (v : Vec3) (eye : Eye) :
    (∀ m, reg (smoothKey eye) = some m →
      mapOpenness reg v eye = clampVal (m v) ∧
      0 ≤ mapOpenness reg v eye ∧ mapOpenness reg v eye ≤ 1) ∧
    (reg (smoothKey eye) = none → ∀ m, reg (binKey eye) = some m →
      mapOpenness reg v eye = clampVal (m v) ∧
      0 ≤ mapOpenness reg v eye ∧ mapOpenness reg v eye ≤ 1) ∧
    (reg (smoothKey eye) = none → reg (binKey eye) = none →
      mapOpenness reg v eye = 1/2) := by
  have hb : ∀ x : ℚ, 0 ≤ clampVal x ∧ clampVal x ≤ 1 := by
    intro x
    constructor
    · rw [clampVal]
      rcases le_total (max x 0) 1 with h | h
      · rw [min_eq_left h]; exact le_max_right x 0
      · rw [min_eq_right h]; norm_num
    · exact min_le_right _ _
  refine ⟨?_, ?_, ?_⟩
  · intro m hm
    have : mapOpenness reg v eye = clampVal (m v) := by
      rw [mapOpenness, predictSmooth, hm]
    exact ⟨this, by rw [this]; exact (hb (m v)).1, by rw [this]; exact (hb (m v)).2⟩
  · intro hs m hm
    have : mapOpenness reg v eye = clampVal (m v) := by
      rw [mapOpenness, predictSmooth, hs, predictBinary, hm]
    exact ⟨this, by rw [this]; exact (hb (m v)).1, by rw [this]; exact (hb (m v)).2⟩
  · intro hs hbn
    rw [mapOpenness, predictSmooth, hs, predictBinary, hbn]

/-- Witness for C6: with no artifacts registered, the output is 0.5. -/
theorem claimC6_witness :
    mapOpenness (fun _ => none) ((0 : ℚ), (0 : ℚ), (0 : ℚ)) Eye.combined = 1/2 :=
  (claimC6_mapOpenness_fallback (fun _ => none) ((0 : ℚ), (0 : ℚ), (0 : ℚ))
    Eye.combined).2.2 rfl rfl

/-- Claim C7: `appendSamples` appends one sample to a variant (and updates
its last-seen timestamp) exactly when that variant's incoming timestamp is
non-null and differs from the recorded one, and repeating the exact call
leaves the buffer unchanged (no duplicate samples from repeated
notifications). -/
theorem claimC7_appendSamples_dedup (b : CalibrationBuffer)
    (cTS lTS rTS : Option ℚ) (lat latL latR : Latents) :
    rowsCount (appendSamples b cTS lTS rTS lat latL latR).combined =
      rowsCount b.combined +
        (if cTS ≠ none ∧ cTS ≠ b.lastCombinedTS then 1 else 0) ∧
    rowsCount (appendSamples b cTS lTS rTS lat latL latR).left =
      rowsCount b.left + (if lTS ≠ none ∧ lTS ≠ b.lastLeftTS then 1 else 0) ∧
    rowsCount (appendSamples b cTS lTS rTS lat latL latR).right =
      rowsCount b.right + (if rTS ≠ none ∧ rTS ≠ b.lastRightTS then 1 else 0) ∧
    (appendSamples b cTS lTS rTS lat latL latR).lastCombinedTS =
      (if cTS ≠ none ∧ cTS ≠ b.lastCombinedTS then cTS else b.lastCombinedTS) ∧
    (appendSamples b cTS lTS rTS lat latL latR).lastLeftTS =
      (if lTS ≠ none ∧ lTS ≠ b.lastLeftTS then lTS else b.lastLeftTS) ∧
    (appendSamples b cTS lTS rTS lat latL latR).lastRightTS =
      (if rTS ≠ none ∧ rTS ≠ b.lastRightTS then rTS else b.lastRightTS) ∧
    appendSamples (appendSamples b cTS lTS rTS lat latL latR) cTS lTS rTS lat latL latR =
      appendSamples b cTS lTS rTS lat latL latR := by
  obtain ⟨cm, lm, rm, cts, lts, rts, og⟩ := b
  by_cases hc : cTS ≠ none ∧ cTS ≠ cts <;>
    by_cases hl : lTS ≠ none ∧ lTS ≠ lts <;>
      by_cases hr : rTS ≠ none ∧ rTS ≠ rts <;>
        cases cm <;> cases lm <;> cases rm <;>
          simp [appendSamples, ensureMatrices, rowsCount, pushSample, hc, hl, hr]

/-- Claim C8: binary training for an eye runs exactly when that eye's
closed and open matrices are present and non-empty; the submitted set is
class-balanced at `k = min` of the class sizes — `2k` samples, labels `0`
then `1` — and each class is downsampled by `k` distinct in-range indices
(without replacement), given that the shuffle is a permutation of the
index range. -/
theorem claimC8_binary_training_balance (closedBuffer openBuffer : CalibrationBuffer)
    (eye : Eye) (c o : SampleMatrix) (shufC shufO : List ℕ)
    (hC : shufC.Perm (List.range c.1.length))
    (hO : shufO.Perm (List.range o.1.length)) :
    (binaryCallForEye closedBuffer openBuffer eye = some (c, o) ↔
      getEyeMat closedBuffer eye = some c ∧ getEyeMat openBuffer eye = some o ∧
        c.1.length ≠ 0 ∧ o.1.length ≠ 0) ∧
    (trainBinaryReq eye c o shufC shufO).xs.length = 2 * min c.1.length o.1.length ∧
    (trainBinaryReq eye c o shufC shufO).ys =
      List.replicate (min c.1.length o.1.length) 0 ++
        List.replicate (min c.1.length o.1.length) 1 ∧
    (trainBinaryReq eye c o shufC shufO).key = binKey eye ∧
    (shufC.take (min c.1.length o.1.length)).length = min c.1.length o.1.length ∧
    (shufC.take (min c.1.length o.1.length)).Nodup ∧
    (∀ i ∈ shufC.take (min c.1.length o.1.length), i < c.1.length) ∧
    (shufO.take (min c.1.length o.1.length)).length = min c.1.length o.1.length ∧
    (shufO.take (min c.1.length o.1.length)).Nodup ∧
    (∀ i ∈ shufO.take (min c.1.length o.1.length), i < o.1.length) := by
  have hlenC : shufC.length = c.1.length := by
    rw [hC.length_eq, List.length_range]
  have hlenO : shufO.length = o.1.length := by
    rw [hO.length_eq, List.length_range]
  refine ⟨?_, ?_, rfl, rfl, ?_, ?_, ?_, ?_, ?_, ?_⟩
  · constructor
    · intro h
      rcases hcm : getEyeMat closedBuffer eye with _ | c2 <;>
        rcases hom : getEyeMat openBuffer eye with _ | o2 <;>
          rw [binaryCallForEye, hcm, hom] at h
      · exact absurd h (by simp)
      · exact absurd h (by simp)
      · exact absurd h (by simp)
      · have h2 : (if c2.1.length ≠ 0 ∧ o2.1.length ≠ 0 then
            some ((c2, o2) : SampleMatrix × SampleMatrix) else none) = some (c, o) := h
        by_cases hne : c2.1.length ≠ 0 ∧ o2.1.length ≠ 0
        · rw [if_pos hne] at h2
          have h3 := Option.some.inj h2
          have hc2 : c2 = c := congrArg Prod.fst h3
          have ho2 : o2 = o := congrArg Prod.snd h3
          subst hc2
          subst ho2
          refine ⟨?_, ?_, hne.1, hne.2⟩ <;> first | exact hcm | exact hom | rfl
        · rw [if_neg hne] at h2
          exact absurd h2 (by simp)
    · rintro ⟨h1, h2, h3, h4⟩
      rw [binaryCallForEye, h1, h2]
      show (if c.1.length ≠ 0 ∧ o.1.length ≠ 0 then
        some ((c, o) : SampleMatrix × SampleMatrix) else none) = some (c, o)
      rw [if_pos ⟨h3, h4⟩]
  · rw [trainBinaryReq]
    simp only [List.length_append, matToFrames, downsample, List.length_map,
      List.length_range, List.length_take]
    omega
  · rw [List.length_take]
    omega
  · exact (hC.nodup_iff.mpr (List.nodup_range _)).sublist (List.take_sublist _ _)
  · intro i hi
    have : i ∈ shufC := List.mem_of_mem_take hi
    have := hC.mem_iff.mp this
    simpa using this
  · rw [List.length_take]
    omega
  · exact (hO.nodup_iff.mpr (List.nodup_range _)).sublist (List.take_sublist _ _)
  · intro i hi
    have : i ∈ shufO := List.mem_of_mem_take hi
    have := hO.mem_iff.mp this
    simpa using this

/-- Witness for C8 at a concrete configuration. -/
theorem claimC8_witness :
    (binaryCallForEye
        { makeBuffer with combined := some (([0, 1], [0, 1], [0, 1]) : SampleMatrix) }
        { makeBuffer with combined := some (([2], [2], [2]) : SampleMatrix) }
        Eye.combined =
      some ((([0, 1], [0, 1], [0, 1]) : SampleMatrix), (([2], [2], [2]) : SampleMatrix))) ∧
    (trainBinaryReq Eye.combined (([0, 1], [0, 1], [0, 1]) : SampleMatrix)
      (([2], [2], [2]) : SampleMatrix) [1, 0] [0]).xs.length = 2 * 1 :=
  ⟨((claimC8_binary_training_balance _ _ Eye.combined
      (([0, 1], [0, 1], [0, 1]) : SampleMatrix) (([2], [2], [2]) : SampleMatrix)
      [1, 0] [0] (by decide) (by decide)).1).mpr ⟨rfl, rfl, by decide, by decide⟩,
   (claimC8_binary_training_balance
      { makeBuffer with combined := some (([0, 1], [0, 1], [0, 1]) : SampleMatrix) }
      { makeBuffer with combined := some (([2], [2], [2]) : SampleMatrix) }
      Eye.combined (([0, 1], [0, 1], [0, 1]) : SampleMatrix)
      (([2], [2], [2]) : SampleMatrix) [1, 0] [0] (by decide) (by decide)).2.1⟩

/-- Claim C9: when the blink buffer for an eye is missing or empty, or the
extrema labeling of its predicted sequence has an empty peak or valley
list, no smooth training call is made and the registry is unchanged (in
particular the smooth key's entry is untouched). -/
theorem claimC9_blink_training_noop (reg : Registry)
    (trainer : SmoothTrainCall → (Vec3 → ℚ)) (blinkBuffer : CalibrationBuffer)
    (eye : Eye)
    (h : match getEyeMat blinkBuffer eye with
      | none => True
      | some mat => mat.1.length = 0 ∨
          (labelBlinkExtrema ((matToFrames mat).map fun v => predictBinary reg eye v)
            OPEN_TH_FIXED CLOSE_TH_FIXED).peaks = [] ∨
          (labelBlinkExtrema ((matToFrames mat).map fun v => predictBinary reg eye v)
            OPEN_TH_FIXED CLOSE_TH_FIXED).valleys = []) :
    runBlinkInferenceAndTrainForEye reg trainer blinkBuffer eye = (reg, none) := by
  rcases hm : getEyeMat blinkBuffer eye with _ | mat
  · rw [runBlinkInferenceAndTrainForEye, hm]
  · rw [hm] at h
    rcases h with h0 | hp | hv
    · rw [runBlinkInferenceAndTrainForEye, hm]
      simp [h0]
    · by_cases h0 : mat.1.length = 0 <;>
        · rw [runBlinkInferenceAndTrainForEye, hm]
          simp [h0, hp]
    · by_cases h0 : mat.1.length = 0 <;>
        · rw [runBlinkInferenceAndTrainForEye, hm]
          simp [h0, hv]

/-- Witness for C9: an empty blink buffer is a no-op. -/
theorem claimC9_witness :
    runBlinkInferenceAndTrainForEye (fun _ => none) (fun _ _ => 0) makeBuffer
      Eye.combined = ((fun _ => none : Registry), none) :=
  claimC9_blink_training_noop (fun _ => none) (fun _ _ => 0) makeBuffer Eye.combined
    (by rw [show getEyeMat makeBuffer Eye.combined = none from rfl]; trivial)

end EyeTracking
